import Mathlib

/-!
Shallow embedding of the FM16/SW16 interconnect simulator
(`examples/fm16/fm16_system.py`): packet data model, NPU node
(injection, per-port output FIFOs, delivery), the SW5809s VOQ crossbar
switch (ECMP enqueue, round-robin egress arbitration), and the two
topology drivers (full mesh `FM16System` and switched star `SW16System`).

The Python `random.Random` stream is abstracted by an oracle: each
injection attempt is given a `skip` flag (modelling
`rng.random() > HBM_INJECT_PROB`; with the repository's constants that
probability is 1.0 so the branch never fires in real runs, but the
embedding keeps it) and a raw natural `pick` from which the retry loop
`while dst == self.id: dst = rng.randint(0, N_NPUS-1)` result is
reconstructed: the loop terminates exactly when a draw differs from
`self.id`, so its result ranges over the other node ids; we index that
result set directly via `dstOf`, a bijection from `pick % (N_NPUS-1)`
onto the ids distinct from `self.id`.
-/

namespace FM16

-- ══════════════════ Parameters (module constants) ══════════════════

def N_NPUS : Nat := 16
def FM_LINKS_PER_PAIR : Nat := 4
def SW_LINKS_PER_NPU : Nat := 32
def SW_XBAR_LINKS : Nat := 512
def SW_LINKS_PER_PORT : Nat := 4
def SW_XBAR_PORTS : Nat := SW_XBAR_LINKS / SW_LINKS_PER_PORT  -- 128 logical ports
def SW_PORTS_PER_NPU : Nat := SW_LINKS_PER_NPU / SW_LINKS_PER_PORT  -- 8
def PKT_SIZE : Nat := 512
def LINK_BW_GBPS : Nat := 112
def PKT_TIME_NS : ℚ := PKT_SIZE * 8 / LINK_BW_GBPS
def INJECT_BATCH : Nat := 8
def FIFO_DEPTH : Nat := 64
def VOQ_DEPTH : Nat := 32

def FM_LINK_LATENCY : Nat := 3
def SW_LINK_LATENCY : Nat := 2
def SW_XBAR_LATENCY : Nat := 1

-- ══════════════════ Packet ══════════════════

structure Packet where
  src : Nat
  dst : Nat
  seq : Nat
  inject_cycle : Nat
deriving DecidableEq, Repr

def Packet.latency (p : Packet) (now : Nat) : Int :=
  (now : Int) - (p.inject_cycle : Int)

-- ══════════════════ Injection oracle ══════════════════

/-- One injection attempt's worth of pseudo-randomness: `skip` models the
`rng.random() > HBM_INJECT_PROB` gate, `pick` the randomness consumed by
the destination retry loop. -/
structure InjAttempt where
  skip : Bool
  pick : Nat
deriving DecidableEq, Repr

/-- Result of `while dst == self.id: dst = rng.randint(0, N_NPUS-1)`:
a destination among the `N_NPUS - 1` node ids other than `id`,
indexed by `c = pick % (N_NPUS - 1)`. -/
def dstOf (id c : Nat) : Nat :=
  if c < id then c else c + 1

-- ══════════════════ NPU node ══════════════════

structure NPUNode where
  id : Nat
  n_ports : Nat
  out_fifos : List (List Packet)
  seq : Nat
  pkts_injected : Nat
  pkts_delivered : Nat
  latencies : List Int
deriving DecidableEq, Repr

def mkNPUNode (nid n_ports : Nat) : NPUNode :=
  { id := nid
    n_ports := n_ports
    out_fifos := List.replicate n_ports []
    seq := 0
    pkts_injected := 0
    pkts_delivered := 0
    latencies := [] }

/-- Body of one iteration of the `for _ in range(INJECT_BATCH)` loop in
`NPUNode.inject`. -/
def injectOne (n : NPUNode) (cycle : Nat) (a : InjAttempt) : NPUNode :=
  if a.skip then n
  else
    let dst := dstOf n.id (a.pick % (N_NPUS - 1))
    let pkt : Packet := ⟨n.id, dst, n.seq, cycle⟩
    let n1 : NPUNode := { n with seq := n.seq + 1 }
    let port := dst % n1.n_ports
    if (n1.out_fifos.getD port []).length < FIFO_DEPTH then
      { n1 with
        out_fifos := n1.out_fifos.set port ((n1.out_fifos.getD port []) ++ [pkt])
        pkts_injected := n1.pkts_injected + 1 }
    else n1

/-- `NPUNode.inject(cycle, rng)`: up to `INJECT_BATCH` injection attempts,
each consuming the oracle at its attempt index. -/
def NPUNode.inject (n : NPUNode) (cycle : Nat) (o : Nat → InjAttempt) : NPUNode :=
  (List.range INJECT_BATCH).foldl (fun n k => injectOne n cycle (o k)) n

/-- `NPUNode.tx(port)`: pop the head of the named output FIFO, if any. -/
def NPUNode.tx (n : NPUNode) (port : Nat) : Option Packet × NPUNode :=
  match n.out_fifos.getD port [] with
  | [] => (none, n)
  | pkt :: rest => (some pkt, { n with out_fifos := n.out_fifos.set port rest })

/-- `NPUNode.rx(pkt, cycle)`: record delivery and observed latency. -/
def NPUNode.rx (n : NPUNode) (pkt : Packet) (cycle : Nat) : NPUNode :=
  { n with
    pkts_delivered := n.pkts_delivered + 1
    latencies := n.latencies ++ [pkt.latency cycle] }

-- ══════════════════ SW5809s switch ══════════════════

/-- Point update of a one-argument map, used for the mutable arrays
`rr`, `global_rr`, `port_enq_count` of the Python switch. -/
def upd1 (f : Nat → Nat) (i v : Nat) : Nat → Nat :=
  fun x => if x = i then v else f x

/-- Point update of a two-argument map, used for the mutable matrices
`voqs` and `ingress_rr`. -/
def upd2 {α : Type} (f : Nat → Nat → α) (i j : Nat) (v : α) : Nat → Nat → α :=
  fun x y => if x = i ∧ y = j then v else f x y

/-- State of the SW5809s VOQ crossbar. The Python object also holds an
unused `rng = random.Random(123)` (never read by `enqueue`/`schedule`),
which is omitted. -/
structure SW5809s where
  n_ports : Nat
  ports_per_npu : Nat
  pkts_per_port : Nat
  ecmp_mode : String
  voqs : Nat → Nat → List Packet
  rr : Nat → Nat
  ingress_rr : Nat → Nat → Nat
  global_rr : Nat → Nat
  pkts_switched : Nat
  pkts_enqueued : Nat
  pkts_dropped : Nat
  port_enq_count : Nat → Nat

def mkSW5809s (ecmp_mode : String) : SW5809s :=
  { n_ports := SW_XBAR_PORTS
    ports_per_npu := SW_PORTS_PER_NPU
    pkts_per_port := SW_LINKS_PER_PORT
    ecmp_mode := ecmp_mode
    voqs := fun _ _ => []
    rr := fun _ => 0
    ingress_rr := fun _ _ => 0
    global_rr := fun _ => 0
    pkts_switched := 0
    pkts_enqueued := 0
    pkts_dropped := 0
    port_enq_count := fun _ => 0 }

/-- `SW5809s.enqueue(src_npu, in_port_hint, pkt)`. Returns the updated
switch state and the Python boolean result. -/
def SW5809s.enqueue (s : SW5809s) (src_npu in_port_hint : Nat) (pkt : Packet) :
    SW5809s × Bool :=
  let dst_npu := pkt.dst
  if dst_npu = src_npu ∨ N_NPUS ≤ dst_npu then (s, false)
  else
    let in_port := src_npu * s.ports_per_npu + in_port_hint % s.ports_per_npu
    let dst_base := dst_npu * s.ports_per_npu
    let step1 : Nat × SW5809s :=
      if s.ecmp_mode = "independent" then
        let irr := upd2 s.ingress_rr in_port dst_npu
          ((s.ingress_rr in_port dst_npu + 1) % s.ports_per_npu)
        (s.ingress_rr in_port dst_npu, { s with ingress_rr := irr })
      else
        let grr := upd1 s.global_rr dst_npu
          ((s.global_rr dst_npu + 1) % s.ports_per_npu)
        (s.global_rr dst_npu, { s with global_rr := grr })
    let idx := step1.1
    let s1 := step1.2
    let out_port := dst_base + idx
    if (s1.voqs in_port out_port).length < VOQ_DEPTH then
      let v := upd2 s1.voqs in_port out_port (s1.voqs in_port out_port ++ [pkt])
      let pec := upd1 s1.port_enq_count out_port (s1.port_enq_count out_port + 1)
      ({ s1 with voqs := v, pkts_enqueued := s1.pkts_enqueued + 1,
                 port_enq_count := pec }, true)
    else ({ s1 with pkts_dropped := s1.pkts_dropped + 1 }, false)

/-- The `for offset in range(self.n_ports)` arbitration scan of
`SW5809s.schedule` for one egress port, started at `offset` with `fuel`
iterations remaining. Returns the granted ingress port together with the
granted packet and the rest of its VOQ, if any VOQ is granted. -/
def scanFrom (s : SW5809s) (out_port dest_npu : Nat) :
    Nat → Nat → Option (Nat × Packet × List Packet)
  | _, 0 => none
  | offset, fuel + 1 =>
    let in_port := (s.rr out_port + offset) % s.n_ports
    if in_port / s.ports_per_npu = dest_npu then
      scanFrom s out_port dest_npu (offset + 1) fuel
    else
      match s.voqs in_port out_port with
      | [] => scanFrom s out_port dest_npu (offset + 1) fuel
      | pkt :: rest => some (in_port, pkt, rest)

/-- The full arbitration scan for one egress port (offsets
`0 .. n_ports-1`). -/
def scanGrant (s : SW5809s) (out_port dest_npu : Nat) :
    Option (Nat × Packet × List Packet) :=
  scanFrom s out_port dest_npu 0 s.n_ports

/-- One iteration of the `for out_port in range(self.n_ports)` loop of
`SW5809s.schedule`. -/
def schedStep (acc : SW5809s × List (Nat × Packet)) (out_port : Nat) :
    SW5809s × List (Nat × Packet) :=
  let s := acc.1
  let dest_npu := out_port / s.ports_per_npu
  match scanGrant s out_port dest_npu with
  | none => acc
  | some (in_port, pkt, rest) =>
    let v := upd2 s.voqs in_port out_port rest
    let r := upd1 s.rr out_port ((in_port + 1) % s.n_ports)
    ({ s with voqs := v, rr := r, pkts_switched := s.pkts_switched + 1 },
     acc.2 ++ [(dest_npu, pkt)])

/-- `SW5809s.schedule()`: each egress port independently arbitrates and
grants at most one packet; returns the updated state and the list of
`(dest_npu, packet)` grants of this cycle. -/
def SW5809s.schedule (s : SW5809s) : SW5809s × List (Nat × Packet) :=
  (List.range s.n_ports).foldl schedStep (s, [])

/-- Sum of `f` over `0 .. n-1` (used for occupancy measures). -/
def sumRange (n : Nat) (f : Nat → Nat) : Nat :=
  ((List.range n).map f).sum

/-- `SW5809s.occupancy()`: total number of packets in all VOQs. -/
def SW5809s.occupancy (s : SW5809s) : Nat :=
  sumRange s.n_ports fun i => sumRange s.n_ports fun j => (s.voqs i j).length

/-- Occupancy of the VOQ column feeding one egress port. -/
def colOcc (s : SW5809s) (out_port : Nat) : Nat :=
  sumRange s.n_ports fun i => (s.voqs i out_port).length

-- ══════════════════ Shared helpers for the topology drivers ══════════════════

/-- In-place update of the `i`-th list element (Python `lst[i].method()`
style mutation); out-of-range indices leave the list unchanged. -/
def modifyAt {α : Type} (f : α → α) : List α → Nat → List α
  | [], _ => []
  | x :: xs, 0 => f x :: xs
  | x :: xs, i + 1 => x :: modifyAt f xs i

/-- Delivery sweep over an in-flight delay list: entries whose arrival
cycle has passed are `rx`-ed by their destination node, the rest are
kept in order. Shared verbatim by the mesh delivery loop and the
switch-to-NPU delivery loop. -/
def deliverSweep (cycle : Nat) (npus : List NPUNode) (infl : List (Nat × Packet)) :
    List NPUNode × List (Nat × Packet) :=
  infl.foldl
    (fun acc e =>
      if e.1 ≤ cycle then
        (modifyAt (fun n => n.rx e.2 cycle) acc.1 e.2.dst, acc.2)
      else (acc.1, acc.2 ++ [e]))
    (npus, [])

-- ══════════════════ FM16 topology (full mesh) ══════════════════

structure FM16System where
  npus : List NPUNode
  cycle : Nat
  inflight : List (Nat × Packet)

def mkFM16System : FM16System :=
  { npus := (List.range N_NPUS).map fun i => mkNPUNode i N_NPUS
    cycle := 0
    inflight := [] }

/-- The `for _ in range(FM_LINKS_PER_PAIR)` inner loop of the mesh
transmit phase: up to `links` pops from one port; a popped packet whose
destination equals the node id is skipped (consuming the link slot),
otherwise it joins the in-flight list with arrival
`cycle + FM_LINK_LATENCY + (queue depth after the pop)`. -/
def fmTxPort (cycle port : Nat) :
    Nat → NPUNode → List (Nat × Packet) → NPUNode × List (Nat × Packet)
  | 0, n, infl => (n, infl)
  | links + 1, n, infl =>
    match n.tx port with
    | (none, n1) => (n1, infl)
    | (some pkt, n1) =>
      if pkt.dst = n1.id then fmTxPort cycle port links n1 infl
      else
        let qlat := (n1.out_fifos.getD port []).length
        fmTxPort cycle port links n1
          (infl ++ [(cycle + FM_LINK_LATENCY + qlat, pkt)])

/-- Mesh transmit phase for one node: all `N_NPUS` ports in order. -/
def fmTxNode (cycle : Nat) (n : NPUNode) (infl : List (Nat × Packet)) :
    NPUNode × List (Nat × Packet) :=
  (List.range N_NPUS).foldl
    (fun acc port => fmTxPort cycle port FM_LINKS_PER_PAIR acc.1 acc.2)
    (n, infl)

/-- Mesh transmit phase over all nodes in list order. -/
def fmTxAll (cycle : Nat) :
    List NPUNode → List (Nat × Packet) → List NPUNode × List (Nat × Packet)
  | [], infl => ([], infl)
  | n :: rest, infl =>
    let r1 := fmTxNode cycle n infl
    let r2 := fmTxAll cycle rest r1.2
    (r1.1 :: r2.1, r2.2)

/-- `FM16System.step()`. The per-cycle pseudo-randomness is supplied by
`o : npu id → attempt index → InjAttempt`. -/
def FM16System.step (s : FM16System) (o : Nat → Nat → InjAttempt) : FM16System :=
  let npus1 := s.npus.map fun n => n.inject s.cycle (o n.id)
  let t := fmTxAll s.cycle npus1 s.inflight
  let d := deliverSweep s.cycle t.1 t.2
  { npus := d.1, cycle := s.cycle + 1, inflight := d.2 }

/-- A run of `n` steps of the mesh system from construction, the step at
cycle `k` consuming oracle slice `o k`. -/
def fmRun (o : Nat → Nat → Nat → InjAttempt) : Nat → FM16System
  | 0 => mkFM16System
  | n + 1 => (fmRun o n).step (o n)

-- ══════════════════ SW16 topology (switched star) ══════════════════

structure SW16System where
  ecmp_mode : String
  npus : List NPUNode
  switch : SW5809s
  cycle : Nat
  to_switch : List (Nat × Nat × Nat × Packet)
  to_npu : List (Nat × Packet)

def mkSW16System (ecmp_mode : String) : SW16System :=
  { ecmp_mode := ecmp_mode
    npus := (List.range N_NPUS).map fun i => mkNPUNode i N_NPUS
    switch := mkSW5809s ecmp_mode
    cycle := 0
    to_switch := []
    to_npu := [] }

/-- The `while sent < SW_LINKS_PER_NPU` loop of the switched transmit
phase, for one port, with `fuel` bounding the number of pops (called
with the port's FIFO length, which the loop can never exceed: every
iteration that recurses pops exactly one packet). A popped packet whose
destination equals the node id is skipped without consuming a link slot. -/
def swTxLoop (cycle port : Nat) :
    Nat → NPUNode → Nat → List (Nat × Nat × Nat × Packet) →
    NPUNode × Nat × List (Nat × Nat × Nat × Packet)
  | 0, n, sent, acc => (n, sent, acc)
  | fuel + 1, n, sent, acc =>
    if sent < SW_LINKS_PER_NPU then
      match n.tx port with
      | (none, n1) => (n1, sent, acc)
      | (some pkt, n1) =>
        if pkt.dst = n1.id then swTxLoop cycle port fuel n1 sent acc
        else
          swTxLoop cycle port fuel n1 (sent + 1)
            (acc ++ [(cycle + SW_LINK_LATENCY, n1.id, sent % SW_PORTS_PER_NPU, pkt)])
    else (n, sent, acc)

/-- Switched transmit phase for one node: all `N_NPUS` ports in order,
sharing the `sent` budget of `SW_LINKS_PER_NPU` packets per cycle. -/
def swTxNode (cycle : Nat) (n : NPUNode) (acc : List (Nat × Nat × Nat × Packet)) :
    NPUNode × List (Nat × Nat × Nat × Packet) :=
  let r := (List.range N_NPUS).foldl
    (fun st port =>
      swTxLoop cycle port ((st.1.out_fifos.getD port []).length) st.1 st.2.1 st.2.2)
    (n, 0, acc)
  (r.1, r.2.2)

/-- Switched transmit phase over all nodes in list order. -/
def swTxAll (cycle : Nat) :
    List NPUNode → List (Nat × Nat × Nat × Packet) →
    List NPUNode × List (Nat × Nat × Nat × Packet)
  | [], acc => ([], acc)
  | n :: rest, acc =>
    let r1 := swTxNode cycle n acc
    let r2 := swTxAll cycle rest r1.2
    (r1.1 :: r2.1, r2.2)

/-- Delivery sweep of the node-to-switch delay list: arrived entries are
enqueued into the switch (the Python code ignores the boolean result),
the rest are kept in order. -/
def swDeliverToSwitch (cycle : Nat) (sw : SW5809s)
    (ts : List (Nat × Nat × Nat × Packet)) :
    SW5809s × List (Nat × Nat × Nat × Packet) :=
  ts.foldl
    (fun acc e =>
      if e.1 ≤ cycle then ((acc.1.enqueue e.2.1 e.2.2.1 e.2.2.2).1, acc.2)
      else (acc.1, acc.2 ++ [e]))
    (sw, [])

/-- The delivery fold of `swDeliverToSwitch`, with an explicit
accumulator (used to state its invariant lemma). -/
def swDelFold (cycle : Nat) (ts : List (Nat × Nat × Nat × Packet))
    (acc : SW5809s × List (Nat × Nat × Nat × Packet)) :
    SW5809s × List (Nat × Nat × Nat × Packet) :=
  ts.foldl
    (fun a e =>
      if e.1 ≤ cycle then ((a.1.enqueue e.2.1 e.2.2.1 e.2.2.2).1, a.2)
      else (a.1, a.2 ++ [e])) acc

/-- `SW16System.step()`. -/
def SW16System.step (s : SW16System) (o : Nat → Nat → InjAttempt) : SW16System :=
  let npus1 := s.npus.map fun n => n.inject s.cycle (o n.id)
  let t := swTxAll s.cycle npus1 s.to_switch
  let e := swDeliverToSwitch s.cycle s.switch t.2
  let sch := e.1.schedule
  let tn := s.to_npu ++ sch.2.map
    (fun g => (s.cycle + SW_XBAR_LATENCY + SW_LINK_LATENCY, g.2))
  let d := deliverSweep s.cycle t.1 tn
  { ecmp_mode := s.ecmp_mode, npus := d.1, switch := sch.1,
    cycle := s.cycle + 1, to_switch := e.2, to_npu := d.2 }

/-- A run of `n` steps of the switched system from construction. -/
def swRun (ecmp_mode : String) (o : Nat → Nat → Nat → InjAttempt) :
    Nat → SW16System
  | 0 => mkSW16System ecmp_mode
  | n + 1 => (swRun ecmp_mode o n).step (o n)

/-- The intermediate results of the phases of `SW16System.step`, named
so the step lemmas can speak about them: post-injection nodes. -/
def swN1 (s : SW16System) (o : Nat → Nat → InjAttempt) : List NPUNode :=
  s.npus.map fun n => n.inject s.cycle (o n.id)

/-- Post-transmit nodes and node-to-switch delay list. -/
def swT (s : SW16System) (o : Nat → Nat → InjAttempt) :
    List NPUNode × List (Nat × Nat × Nat × Packet) :=
  swTxAll s.cycle (swN1 s o) s.to_switch

/-- Post-delivery switch state and surviving delay entries. -/
def swE (s : SW16System) (o : Nat → Nat → InjAttempt) :
    SW5809s × List (Nat × Nat × Nat × Packet) :=
  swDeliverToSwitch s.cycle s.switch (swT s o).2

/-- Post-schedule switch state and grant list. -/
def swSch (s : SW16System) (o : Nat → Nat → InjAttempt) :
    SW5809s × List (Nat × Packet) :=
  (swE s o).1.schedule

/-- The extended switch-to-node delay list. -/
def swTN (s : SW16System) (o : Nat → Nat → InjAttempt) : List (Nat × Packet) :=
  s.to_npu ++ (swSch s o).2.map
    (fun g => (s.cycle + SW_XBAR_LATENCY + SW_LINK_LATENCY, g.2))

/-- Post-final-delivery nodes and surviving switch-to-node entries. -/
def swD (s : SW16System) (o : Nat → Nat → InjAttempt) :
    List NPUNode × List (Nat × Packet) :=
  deliverSweep s.cycle (swT s o).1 (swTN s o)

-- ══════════════════ Aggregate measures ══════════════════

def nInj (npus : List NPUNode) : Nat := (npus.map (·.pkts_injected)).sum

def nDel (npus : List NPUNode) : Nat := (npus.map (·.pkts_delivered)).sum

/-- Number of packets resident in one node's output FIFOs. -/
def nodeOcc (n : NPUNode) : Nat := (n.out_fifos.map List.length).sum

/-- Number of packets resident in all nodes' output FIFOs. -/
def fifoOcc (npus : List NPUNode) : Nat := (npus.map nodeOcc).sum

/-- The `all_lats` list of `_compute_stats`: every node's recorded
latencies, concatenated in node order. -/
def allLats (npus : List NPUNode) : List Int := (npus.map (·.latencies)).flatten

-- ══════════════════ Statistics engine ══════════════════

/-- A value of the heterogeneous statistics dictionary: rational
(Python float), integer latency, natural counter, or per-NPU list. -/
inductive StatVal where
  | q (x : ℚ)
  | i (x : Int)
  | n (x : Nat)
  | ns (l : List Nat)
deriving DecidableEq, Repr

/-- Stable insertion into a sorted list (ascending). -/
def insertInt (x : Int) : List Int → List Int
  | [] => [x]
  | y :: ys => if x ≤ y then x :: y :: ys else y :: insertInt x ys

/-- `list.sort()` of Python: stable ascending sort. -/
def sortInts : List Int → List Int
  | [] => []
  | x :: xs => insertInt x (sortInts xs)

/-- `_compute_stats(npus, cycle)`, the returned dict modelled as an
association list in insertion order. Python's float arithmetic is
modelled over `ℚ`; the float percentile indices `int(n*0.95)` and
`int(n*0.99)` are modelled as the exact truncations `n*95/100` and
`n*99/100`. -/
def computeStats (npus : List NPUNode) (cycle : Nat) : List (String × StatVal) :=
  let all_lats := allLats npus
  let total_inj := nInj npus
  let total_del := nDel npus
  if all_lats = [] then
    [("avg", .q 0), ("p50", .i 0), ("p95", .i 0), ("p99", .i 0),
     ("max_lat", .i 0), ("bw_gbps", .q 0), ("inj", .n total_inj),
     ("del", .n total_del), ("npu_del", .ns (List.replicate npus.length 0))]
  else
    let sorted := sortInts all_lats
    let n := all_lats.length
    let t_ns : ℚ := cycle * PKT_TIME_NS
    let n_npus := npus.length
    let agg_bw : ℚ := if 0 < t_ns then total_del * PKT_SIZE * 8 / t_ns else 0
    [("avg", .q (((sorted.sum : Int) : ℚ) / n)),
     ("p50", .i (sorted.getD (n / 2) 0)),
     ("p95", .i (sorted.getD (n * 95 / 100) 0)),
     ("p99", .i (sorted.getD (n * 99 / 100) 0)),
     ("max_lat", .i (sorted.getD (n - 1) 0)),
     ("agg_bw_gbps", .q agg_bw),
     ("per_npu_bw_gbps", .q (if 0 < n_npus then agg_bw / n_npus else 0)),
     ("inj", .n total_inj),
     ("del", .n total_del),
     ("npu_del", .ns (npus.map (·.pkts_delivered)))]

end FM16


namespace FM16

-- ══════════════════ Traces and concrete states used by theorems ══════════════════

/-- Per-cycle cumulative (injected, delivered) counts of a mesh run. -/
def fmTrace (o : Nat → Nat → Nat → InjAttempt) (n : Nat) : List (Nat × Nat) :=
  (List.range (n + 1)).map fun k => (nInj (fmRun o k).npus, nDel (fmRun o k).npus)

/-- Per-cycle cumulative (injected, delivered, dropped) counts of a
switched run. -/
def swTrace (mode : String) (o : Nat → Nat → Nat → InjAttempt) (n : Nat) :
    List (Nat × Nat × Nat) :=
  (List.range (n + 1)).map fun k =>
    (nInj (swRun mode o k).npus, nDel (swRun mode o k).npus,
     (swRun mode o k).switch.pkts_dropped)

/-- Oracle under which every injection attempt is skipped. -/
def oSkip : Nat → Nat → Nat → InjAttempt := fun _ _ _ => ⟨true, 0⟩

/-- Oracle under which exactly one packet is injected: by NPU 0 at
cycle 0, attempt 0 (destination pick 0, i.e. node 1). -/
def oOne : Nat → Nat → Nat → InjAttempt := fun c npu att =>
  if c = 0 ∧ npu = 0 ∧ att = 0 then ⟨false, 0⟩ else ⟨true, 0⟩

/-- A freshly constructed independent-mode switch whose VOQ
`(ingress 8, egress 0)` is full. -/
def fullVoqState : SW5809s :=
  { mkSW5809s "independent" with
      voqs := upd2 (fun _ _ => []) 8 0 (List.replicate VOQ_DEPTH ⟨1, 0, 0, 0⟩) }

/-- A coordinated-mode switch, constructed and then fed two packets from
NPU 1 (both via ingress-port hint 0, i.e. ingress port 8) to NPU 0; ECMP
spreads them over egress ports 0 and 1, so both sit in VOQ row 8. -/
def dgState : SW5809s :=
  (((mkSW5809s "coordinated").enqueue 1 0 ⟨1, 0, 0, 0⟩).1.enqueue 1 0
    ⟨1, 0, 1, 0⟩).1

/-- A node has evolved from `n0` by zero or more `rx` calls whose
recorded latencies were all at least `B`: everything except the delivery
counter and the latency list is untouched. -/
def RxFrom (B : Nat) (n0 n1 : NPUNode) : Prop :=
  n1.id = n0.id ∧ n1.n_ports = n0.n_ports ∧ n1.out_fifos = n0.out_fifos ∧
  n1.pkts_injected = n0.pkts_injected ∧
  (∀ l ∈ n1.latencies, l ∈ n0.latencies ∨ (B : Int) ≤ l)

/-- Step invariant of the mesh system: well-formed nodes, well-formed
in-flight entries (arrival no earlier than injection plus the pipeline
latency), recorded latencies at least the pipeline latency, and packet
conservation. -/
structure FMInv (s : FM16System) : Prop where
  len : s.npus.length = N_NPUS
  wfn : ∀ n ∈ s.npus, 0 < n.n_ports ∧ n.out_fifos.length = n.n_ports
  fifo_pkts : ∀ n ∈ s.npus, ∀ p pkt, pkt ∈ n.out_fifos.getD p [] →
    pkt.dst ≠ n.id ∧ pkt.dst < N_NPUS ∧ pkt.inject_cycle ≤ s.cycle
  infl : ∀ e ∈ s.inflight,
    e.2.dst < N_NPUS ∧ e.2.inject_cycle + FM_LINK_LATENCY ≤ e.1
  lats : ∀ n ∈ s.npus, ∀ l ∈ n.latencies, (FM_LINK_LATENCY : Int) ≤ l
  cons : nInj s.npus = nDel s.npus + fifoOcc s.npus + s.inflight.length

/-- Step invariant of the switched system: well-formed nodes, switch
geometry, well-formed delay-list entries and VOQ contents (with their
accumulated latency floors), recorded latencies at least
`2*SW_LINK_LATENCY + SW_XBAR_LATENCY`, and packet conservation
including the switch drop counter. -/
structure SWInv (s : SW16System) : Prop where
  len : s.npus.length = N_NPUS
  wfn : ∀ n ∈ s.npus, 0 < n.n_ports ∧ n.out_fifos.length = n.n_ports
  ids : ∀ n ∈ s.npus, n.id < N_NPUS
  fifo_pkts : ∀ n ∈ s.npus, ∀ p pkt, pkt ∈ n.out_fifos.getD p [] →
    pkt.dst ≠ n.id ∧ pkt.dst < N_NPUS ∧ pkt.inject_cycle ≤ s.cycle
  swp : s.switch.n_ports = SW_XBAR_PORTS ∧
    s.switch.ports_per_npu = SW_PORTS_PER_NPU
  ts : ∀ e ∈ s.to_switch, e.2.1 < N_NPUS ∧ e.2.2.2.dst ≠ e.2.1 ∧
    e.2.2.2.dst < N_NPUS ∧ e.2.2.2.inject_cycle + SW_LINK_LATENCY ≤ e.1
  voq : ∀ i j pkt, pkt ∈ s.switch.voqs i j →
    pkt.dst < N_NPUS ∧ pkt.inject_cycle + SW_LINK_LATENCY ≤ s.cycle
  tn : ∀ e ∈ s.to_npu, e.2.dst < N_NPUS ∧
    e.2.inject_cycle + (2 * SW_LINK_LATENCY + SW_XBAR_LATENCY) ≤ e.1
  lats : ∀ n ∈ s.npus, ∀ l ∈ n.latencies,
    ((2 * SW_LINK_LATENCY + SW_XBAR_LATENCY : Nat) : Int) ≤ l
  cons : nInj s.npus = nDel s.npus + fifoOcc s.npus + s.to_switch.length
    + s.switch.occupancy + s.to_npu.length + s.switch.pkts_dropped
  rrb : (∀ i d, s.switch.ingress_rr i d < SW_PORTS_PER_NPU) ∧
    (∀ d, s.switch.global_rr d < SW_PORTS_PER_NPU)

-- ══════════════════ Theorems ══════════════════

/-- C10: when no latency has been recorded, `_compute_stats` returns a
dict containing key `bw_gbps` and lacking `agg_bw_gbps` and
`per_npu_bw_gbps`, with all latency fields zero; after at least one
delivery it contains `agg_bw_gbps` and `per_npu_bw_gbps` and no
`bw_gbps` key. -/
theorem C10_stats_shape (npus : List NPUNode) (cycle : Nat) :
    (allLats npus = [] →
      (computeStats npus cycle).map Prod.fst =
        ["avg", "p50", "p95", "p99", "max_lat", "bw_gbps", "inj", "del",
         "npu_del"] ∧
      (computeStats npus cycle).lookup "avg" = some (.q 0) ∧
      (computeStats npus cycle).lookup "p50" = some (.i 0) ∧
      (computeStats npus cycle).lookup "p95" = some (.i 0) ∧
      (computeStats npus cycle).lookup "p99" = some (.i 0) ∧
      (computeStats npus cycle).lookup "max_lat" = some (.i 0) ∧
      (computeStats npus cycle).lookup "bw_gbps" = some (.q 0) ∧
      (computeStats npus cycle).lookup "agg_bw_gbps" = none ∧
      (computeStats npus cycle).lookup "per_npu_bw_gbps" = none) ∧
    (allLats npus ≠ [] →
      (computeStats npus cycle).map Prod.fst =
        ["avg", "p50", "p95", "p99", "max_lat", "agg_bw_gbps",
         "per_npu_bw_gbps", "inj", "del", "npu_del"] ∧
      (computeStats npus cycle).lookup "bw_gbps" = none) := by
  constructor
  · intro h
    simp [computeStats, h, List.lookup]
  · intro h
    simp [computeStats, h, List.lookup]

/-- C10 witness: both branches exercised on concrete inputs. -/
theorem C10_stats_shape_witness :
    (computeStats [mkNPUNode 0 16] 3).map Prod.fst =
      ["avg", "p50", "p95", "p99", "max_lat", "bw_gbps", "inj", "del",
       "npu_del"] ∧
    (computeStats [⟨0, 16, [], 0, 1, 1, [7]⟩] 3).map Prod.fst =
      ["avg", "p50", "p95", "p99", "max_lat", "agg_bw_gbps",
       "per_npu_bw_gbps", "inj", "del", "npu_del"] := by
  refine ⟨((C10_stats_shape [mkNPUNode 0 16] 3).1 (by decide)).1,
         ((C10_stats_shape [⟨0, 16, [], 0, 1, 1, [7]⟩] 3).2 (by decide)).1⟩

end FM16

namespace FM16

/-- C4 counterexample: enqueueing a packet whose destination equals the
source node returns failure but does NOT increment the drop counter
(the Python `return False` happens before any counter is touched). -/
theorem C4_cex :
    ((mkSW5809s "independent").enqueue 0 0 ⟨0, 0, 0, 0⟩).2 = false ∧
    ¬ (((mkSW5809s "independent").enqueue 0 0 ⟨0, 0, 0, 0⟩).1.pkts_dropped =
        (mkSW5809s "independent").pkts_dropped + 1) := by
  decide

/-- C4 (amended): an enqueue with `packet.dst == src_node` or an
out-of-range destination returns failure and leaves the switch state
entirely unchanged — in particular the drop counter, every VOQ, and
every ECMP round-robin counter are untouched. -/
theorem C4_invalid_dst_rejected (s : SW5809s) (src hint : Nat) (pkt : Packet)
    (h : pkt.dst = src ∨ N_NPUS ≤ pkt.dst) :
    s.enqueue src hint pkt = (s, false) := by
  unfold SW5809s.enqueue
  rw [if_pos h]

/-- C4 witness: the amended theorem applied at a concrete self-addressed
packet. -/
theorem C4_invalid_dst_rejected_witness :
    (mkSW5809s "independent").enqueue 0 0 ⟨0, 0, 0, 0⟩ =
      (mkSW5809s "independent", false) :=
  C4_invalid_dst_rejected (mkSW5809s "independent") 0 0 ⟨0, 0, 0, 0⟩ (Or.inl rfl)

end FM16

namespace FM16

/-- C9: on every enqueue with a valid destination the active ECMP
round-robin counter (the per-ingress counter in independent mode, the
global counter otherwise) is incremented modulo `ports_per_npu`, even
when the call fails; and when the call fails on the valid path (VOQ
full) only `pkts_dropped` and that counter change: every VOQ,
`port_enq_count`, `pkts_enqueued`, `rr`, and the rest of the state stay
unchanged. -/
theorem C9_ecmp_counter_on_drop (s : SW5809s) (src hint : Nat) (pkt : Packet)
    (hne : pkt.dst ≠ src) (hlt : pkt.dst < N_NPUS) :
    (s.ecmp_mode = "independent" →
      (s.enqueue src hint pkt).1.ingress_rr
          (src * s.ports_per_npu + hint % s.ports_per_npu) pkt.dst =
        (s.ingress_rr (src * s.ports_per_npu + hint % s.ports_per_npu) pkt.dst
          + 1) % s.ports_per_npu ∧
      (∀ i d, ¬(i = src * s.ports_per_npu + hint % s.ports_per_npu ∧ d = pkt.dst) →
        (s.enqueue src hint pkt).1.ingress_rr i d = s.ingress_rr i d) ∧
      (s.enqueue src hint pkt).1.global_rr = s.global_rr) ∧
    (s.ecmp_mode ≠ "independent" →
      (s.enqueue src hint pkt).1.global_rr pkt.dst =
        (s.global_rr pkt.dst + 1) % s.ports_per_npu ∧
      (∀ d, d ≠ pkt.dst →
        (s.enqueue src hint pkt).1.global_rr d = s.global_rr d) ∧
      (s.enqueue src hint pkt).1.ingress_rr = s.ingress_rr) ∧
    ((s.enqueue src hint pkt).2 = false →
      (s.enqueue src hint pkt).1.voqs = s.voqs ∧
      (s.enqueue src hint pkt).1.port_enq_count = s.port_enq_count ∧
      (s.enqueue src hint pkt).1.pkts_enqueued = s.pkts_enqueued ∧
      (s.enqueue src hint pkt).1.pkts_dropped = s.pkts_dropped + 1 ∧
      (s.enqueue src hint pkt).1.rr = s.rr ∧
      (s.enqueue src hint pkt).1.pkts_switched = s.pkts_switched ∧
      (s.enqueue src hint pkt).1.ecmp_mode = s.ecmp_mode ∧
      (s.enqueue src hint pkt).1.n_ports = s.n_ports ∧
      (s.enqueue src hint pkt).1.ports_per_npu = s.ports_per_npu) := by
  have hcond : ¬(pkt.dst = src ∨ N_NPUS ≤ pkt.dst) := by
    push_neg
    exact ⟨hne, hlt⟩
  refine ⟨?_, ?_, ?_⟩
  · intro hmode
    unfold SW5809s.enqueue
    rw [if_neg hcond]
    simp only [hmode, reduceIte]
    refine ⟨?_, ?_, ?_⟩
    · split <;> simp [upd2]
    · intro i d hid
      split <;> (simp only [upd2]; rw [if_neg hid])
    · split <;> rfl
  · intro hmode
    unfold SW5809s.enqueue
    rw [if_neg hcond]
    simp only [if_neg hmode]
    refine ⟨?_, ?_, ?_⟩
    · split <;> simp [upd1]
    · intro d hd
      split <;> (simp only [upd1]; rw [if_neg hd])
    · split <;> rfl
  · intro hfalse
    unfold SW5809s.enqueue at hfalse ⊢
    rw [if_neg hcond] at hfalse ⊢
    by_cases hmode : s.ecmp_mode = "independent"
    · simp only [hmode, reduceIte] at hfalse ⊢
      split at hfalse
      · simp at hfalse
      · split
        · omega
        · exact ⟨rfl, rfl, rfl, rfl, rfl, rfl, rfl, rfl, rfl⟩
    · simp only [if_neg hmode] at hfalse ⊢
      split at hfalse
      · simp at hfalse
      · split
        · omega
        · exact ⟨rfl, rfl, rfl, rfl, rfl, rfl, rfl, rfl, rfl⟩

end FM16

namespace FM16

/-- C9 witness: a full VOQ drop at a concrete switch state — the
per-ingress counter advances, the VOQs and enqueue counters do not. -/
theorem C9_ecmp_counter_on_drop_witness :
    (fullVoqState.enqueue 1 0 ⟨1, 0, 0, 0⟩).1.ingress_rr
        (1 * fullVoqState.ports_per_npu + 0 % fullVoqState.ports_per_npu) 0 =
      (fullVoqState.ingress_rr
          (1 * fullVoqState.ports_per_npu + 0 % fullVoqState.ports_per_npu) 0
        + 1) % fullVoqState.ports_per_npu ∧
    (fullVoqState.enqueue 1 0 ⟨1, 0, 0, 0⟩).1.voqs = fullVoqState.voqs ∧
    (fullVoqState.enqueue 1 0 ⟨1, 0, 0, 0⟩).1.pkts_dropped =
      fullVoqState.pkts_dropped + 1 := by
  have h := C9_ecmp_counter_on_drop fullVoqState 1 0 ⟨1, 0, 0, 0⟩
    (by decide) (by decide)
  exact ⟨(h.1 rfl).1, (h.2.2 (by decide)).1, (h.2.2 (by decide)).2.2.2.1⟩

/-- C8 counterexample: constructing the switched system with the ECMP
mode `ideal_rr` (the constructor's own default, outside the documented
set) does not fail: the mode is stored verbatim, a simulation step
proceeds normally, and an enqueue under that mode succeeds, silently
behaving as coordinated (it advances the shared global round-robin
counter). -/
theorem C8_cex :
    ("ideal_rr" ≠ "independent" ∧ "ideal_rr" ≠ "coordinated") ∧
    (mkSW16System "ideal_rr").switch.ecmp_mode = "ideal_rr" ∧
    ((mkSW16System "ideal_rr").step (fun _ _ => ⟨true, 0⟩)).cycle = 1 ∧
    ((mkSW16System "ideal_rr").switch.enqueue 1 0 ⟨1, 0, 0, 0⟩).2 = true ∧
    ((mkSW16System "ideal_rr").switch.enqueue 1 0 ⟨1, 0, 0, 0⟩).1.global_rr 0
      = 1 := by
  refine ⟨⟨by decide, by decide⟩, rfl, rfl, by decide, by decide⟩

/-- C8 (amended): no ECMP mode validation happens at construction —
`SW16System` stores any mode string and construction always yields a
cycle-0 system; every mode other than `independent` (including the
default `ideal_rr`) silently behaves as `coordinated`: a valid enqueue
advances the shared global round-robin counter and leaves every
per-ingress counter unchanged. -/
theorem C8_no_mode_validation (mode : String) (s : SW5809s) (src hint : Nat)
    (pkt : Packet) (hm : s.ecmp_mode ≠ "independent")
    (hne : pkt.dst ≠ src) (hlt : pkt.dst < N_NPUS) :
    (mkSW16System mode).switch.ecmp_mode = mode ∧
    (mkSW16System mode).ecmp_mode = mode ∧
    (mkSW16System mode).cycle = 0 ∧
    (s.enqueue src hint pkt).1.ingress_rr = s.ingress_rr ∧
    (s.enqueue src hint pkt).1.global_rr pkt.dst =
      (s.global_rr pkt.dst + 1) % s.ports_per_npu := by
  have hcond : ¬(pkt.dst = src ∨ N_NPUS ≤ pkt.dst) := by
    push_neg
    exact ⟨hne, hlt⟩
  refine ⟨rfl, rfl, rfl, ?_, ?_⟩
  · unfold SW5809s.enqueue
    rw [if_neg hcond]
    simp only [if_neg hm]
    split <;> rfl
  · unfold SW5809s.enqueue
    rw [if_neg hcond]
    simp only [if_neg hm]
    split <;> simp [upd1]

/-- C8 witness: the amended theorem applied at the default mode and a
concrete valid enqueue. -/
theorem C8_no_mode_validation_witness :
    (mkSW16System "ideal_rr").switch.ecmp_mode = "ideal_rr" ∧
    ((mkSW5809s "ideal_rr").enqueue 1 0 ⟨1, 0, 0, 0⟩).1.ingress_rr =
      (mkSW5809s "ideal_rr").ingress_rr ∧
    ((mkSW5809s "ideal_rr").enqueue 1 0 ⟨1, 0, 0, 0⟩).1.global_rr 0 =
      ((mkSW5809s "ideal_rr").global_rr 0 + 1) %
        (mkSW5809s "ideal_rr").ports_per_npu := by
  have h := C8_no_mode_validation "ideal_rr" (mkSW5809s "ideal_rr") 1 0
    ⟨1, 0, 0, 0⟩ (by decide) (by decide) (by decide)
  exact ⟨h.1, h.2.2.2.1, h.2.2.2.2⟩

/-- C7: the per-cycle injected/delivered/dropped count sequences are a
deterministic function of the seed oracle and parameters: equal oracles
give bit-identical traces for the mesh system and for the switched
system in any ECMP mode. -/
theorem C7_determinism (o1 o2 : Nat → Nat → Nat → InjAttempt) (mode : String)
    (n : Nat) (h : o1 = o2) :
    fmTrace o1 n = fmTrace o2 n ∧ swTrace mode o1 n = swTrace mode o2 n := by
  subst h
  exact ⟨rfl, rfl⟩

/-- C7 witness: the determinism theorem applied at a concrete oracle. -/
theorem C7_determinism_witness :
    fmTrace oSkip 2 = fmTrace oSkip 2 ∧
    swTrace "independent" oSkip 2 = swTrace "independent" oSkip 2 :=
  C7_determinism oSkip oSkip "independent" 2 rfl

end FM16

namespace FM16

-- ══════════════════ Helper lemmas: destination choice ══════════════════

theorem dstOf_ne (id c : Nat) : dstOf id c ≠ id := by
  unfold dstOf
  split <;> omega

theorem dstOf_lt (id c : Nat) (hc : c < N_NPUS - 1) : dstOf id c < N_NPUS := by
  unfold dstOf
  unfold N_NPUS at hc ⊢
  split <;> omega

theorem dstOf_inj (id c1 c2 : Nat) (h : dstOf id c1 = dstOf id c2) : c1 = c2 := by
  unfold dstOf at h
  split at h <;> split at h <;> omega

theorem dstOf_surj (id d : Nat) (hd : d < N_NPUS) (hne : d ≠ id)
    (hid : id < N_NPUS) : ∃ c, c < N_NPUS - 1 ∧ dstOf id c = d := by
  unfold N_NPUS at hd hid ⊢
  by_cases hlt : d < id
  · exact ⟨d, by omega, by unfold dstOf; rw [if_pos hlt]⟩
  · refine ⟨d - 1, by omega, ?_⟩
    unfold dstOf
    rw [if_neg (by omega)]
    omega

-- ══════════════════ Helper lemmas: list surgery ══════════════════

theorem getD_set_self {α : Type} (d : α) :
    ∀ (l : List α) (i : Nat) (v : α), i < l.length → (l.set i v).getD i d = v := by
  intro l
  induction l with
  | nil => intro i v h; simp at h
  | cons x xs ih =>
    intro i v h
    cases i with
    | zero => rfl
    | succ j => exact ih j v (by simpa using h)

theorem getD_set_ne {α : Type} (d : α) :
    ∀ (l : List α) (i p : Nat) (v : α), p ≠ i → (l.set i v).getD p d = l.getD p d := by
  intro l
  induction l with
  | nil => intro i p v _; simp [List.set]
  | cons x xs ih =>
    intro i p v hne
    cases i with
    | zero =>
      cases p with
      | zero => exact absurd rfl hne
      | succ q => rfl
    | succ j =>
      cases p with
      | zero => rfl
      | succ q => simpa using ih j q v (by omega)

theorem set_of_length_le {α : Type} :
    ∀ (l : List α) (i : Nat) (v : α), l.length ≤ i → l.set i v = l := by
  intro l
  induction l with
  | nil => intro i v _; rfl
  | cons x xs ih =>
    intro i v h
    cases i with
    | zero => simp at h
    | succ j =>
      simp only [List.set, List.cons.injEq, true_and]
      exact ih j v (by simpa using h)

theorem length_sum_set (l : List (List Packet)) (i : Nat) (v : List Packet)
    (h : i < l.length) :
    ((l.set i v).map List.length).sum + (l.getD i []).length
      = (l.map List.length).sum + v.length := by
  induction l generalizing i with
  | nil => simp at h
  | cons x xs ih =>
    cases i with
    | zero => simp; omega
    | succ j =>
      have := ih j (by simpa using h)
      simp only [List.set, List.map_cons, List.sum_cons, List.getD_cons_succ]
      omega

-- ══════════════════ Helper lemmas: injectOne ══════════════════

theorem injectOne_fields (n : NPUNode) (cycle : Nat) (a : InjAttempt) :
    (injectOne n cycle a).id = n.id ∧
    (injectOne n cycle a).n_ports = n.n_ports ∧
    (injectOne n cycle a).out_fifos.length = n.out_fifos.length ∧
    (injectOne n cycle a).pkts_delivered = n.pkts_delivered ∧
    (injectOne n cycle a).latencies = n.latencies := by
  simp only [injectOne]
  split
  · exact ⟨rfl, rfl, rfl, rfl, rfl⟩
  · split
    · exact ⟨rfl, rfl, by simp, rfl, rfl⟩
    · exact ⟨rfl, rfl, rfl, rfl, rfl⟩

theorem injectOne_seq_bounds (n : NPUNode) (cycle : Nat) (a : InjAttempt) :
    n.seq ≤ (injectOne n cycle a).seq ∧ (injectOne n cycle a).seq ≤ n.seq + 1 := by
  simp only [injectOne]
  split
  · omega
  · split <;> (constructor <;> simp)

theorem injectOne_injected_bounds (n : NPUNode) (cycle : Nat) (a : InjAttempt) :
    n.pkts_injected ≤ (injectOne n cycle a).pkts_injected ∧
    (injectOne n cycle a).pkts_injected ≤ n.pkts_injected + 1 := by
  simp only [injectOne]
  split
  · omega
  · split <;> (constructor <;> simp)

theorem injectOne_cons (n : NPUNode) (cycle : Nat) (a : InjAttempt)
    (hp : 0 < n.n_ports) (hl : n.out_fifos.length = n.n_ports) :
    (injectOne n cycle a).pkts_injected + nodeOcc n
      = n.pkts_injected + nodeOcc (injectOne n cycle a) := by
  simp only [injectOne]
  split
  · rfl
  · split
    · simp only [nodeOcc]
      have hport : dstOf n.id (a.pick % (N_NPUS - 1)) % n.n_ports < n.out_fifos.length := by
        rw [hl]
        exact Nat.mod_lt _ hp
      have := length_sum_set n.out_fifos
        (dstOf n.id (a.pick % (N_NPUS - 1)) % n.n_ports)
        ((n.out_fifos.getD (dstOf n.id (a.pick % (N_NPUS - 1)) % n.n_ports) []) ++
          [⟨n.id, dstOf n.id (a.pick % (N_NPUS - 1)), n.seq, cycle⟩]) hport
      simp only [List.length_append, List.length_cons, List.length_nil] at this
      omega
    · rfl

theorem injectOne_mem (n : NPUNode) (cycle : Nat) (a : InjAttempt)
    (p : Nat) (pkt : Packet)
    (hmem : pkt ∈ (injectOne n cycle a).out_fifos.getD p []) :
    pkt ∈ n.out_fifos.getD p [] ∨
      (pkt.src = n.id ∧ pkt.dst ≠ n.id ∧ pkt.dst < N_NPUS ∧
       pkt.inject_cycle = cycle) := by
  simp only [injectOne] at hmem
  split at hmem
  · exact Or.inl hmem
  · split at hmem
    · by_cases hpp : p = dstOf n.id (a.pick % (N_NPUS - 1)) % n.n_ports
      · subst hpp
        by_cases hlt2 :
            dstOf n.id (a.pick % (N_NPUS - 1)) % n.n_ports < n.out_fifos.length
        · rw [getD_set_self _ _ _ _ hlt2] at hmem
          rcases List.mem_append.mp hmem with h | h
          · exact Or.inl h
          · simp only [List.mem_singleton] at h
            subst h
            exact Or.inr ⟨rfl, dstOf_ne _ _,
              dstOf_lt _ _ (Nat.mod_lt _ (by decide)), rfl⟩
        · push_neg at hlt2
          rw [set_of_length_le _ _ _ hlt2] at hmem
          exact Or.inl hmem
      · rw [getD_set_ne _ _ _ _ _ hpp] at hmem
        exact Or.inl hmem
    · exact Or.inl hmem

end FM16

namespace FM16

-- ══════════════════ Helper lemmas: inject (the full batch) ══════════════════

theorem inject_fold_fields (cycle : Nat) (o : Nat → InjAttempt) :
    ∀ (l : List Nat) (n : NPUNode),
      (l.foldl (fun m k => injectOne m cycle (o k)) n).id = n.id ∧
      (l.foldl (fun m k => injectOne m cycle (o k)) n).n_ports = n.n_ports ∧
      (l.foldl (fun m k => injectOne m cycle (o k)) n).out_fifos.length
        = n.out_fifos.length ∧
      (l.foldl (fun m k => injectOne m cycle (o k)) n).pkts_delivered
        = n.pkts_delivered ∧
      (l.foldl (fun m k => injectOne m cycle (o k)) n).latencies = n.latencies := by
  intro l
  induction l with
  | nil => intro n; exact ⟨rfl, rfl, rfl, rfl, rfl⟩
  | cons a l ih =>
    intro n
    have h1 := injectOne_fields n cycle (o a)
    have h2 := ih (injectOne n cycle (o a))
    simp only [List.foldl_cons]
    exact ⟨h2.1.trans h1.1, h2.2.1.trans h1.2.1, h2.2.2.1.trans h1.2.2.1,
           h2.2.2.2.1.trans h1.2.2.2.1, h2.2.2.2.2.trans h1.2.2.2.2⟩

theorem inject_fold_seq (cycle : Nat) (o : Nat → InjAttempt) :
    ∀ (l : List Nat) (n : NPUNode),
      n.seq ≤ (l.foldl (fun m k => injectOne m cycle (o k)) n).seq ∧
      (l.foldl (fun m k => injectOne m cycle (o k)) n).seq ≤ n.seq + l.length := by
  intro l
  induction l with
  | nil => intro n; simp
  | cons a l ih =>
    intro n
    have h1 := injectOne_seq_bounds n cycle (o a)
    have h2 := ih (injectOne n cycle (o a))
    simp only [List.foldl_cons, List.length_cons]
    omega

theorem inject_fold_injected (cycle : Nat) (o : Nat → InjAttempt) :
    ∀ (l : List Nat) (n : NPUNode),
      n.pkts_injected
        ≤ (l.foldl (fun m k => injectOne m cycle (o k)) n).pkts_injected ∧
      (l.foldl (fun m k => injectOne m cycle (o k)) n).pkts_injected
        ≤ n.pkts_injected + l.length := by
  intro l
  induction l with
  | nil => intro n; simp
  | cons a l ih =>
    intro n
    have h1 := injectOne_injected_bounds n cycle (o a)
    have h2 := ih (injectOne n cycle (o a))
    simp only [List.foldl_cons, List.length_cons]
    omega

theorem inject_fold_cons (cycle : Nat) (o : Nat → InjAttempt) :
    ∀ (l : List Nat) (n : NPUNode), 0 < n.n_ports →
      n.out_fifos.length = n.n_ports →
      (l.foldl (fun m k => injectOne m cycle (o k)) n).pkts_injected + nodeOcc n
        = n.pkts_injected
          + nodeOcc (l.foldl (fun m k => injectOne m cycle (o k)) n) := by
  intro l
  induction l with
  | nil => intro n _ _; rfl
  | cons a l ih =>
    intro n hp hl
    have hf := injectOne_fields n cycle (o a)
    have h1 := injectOne_cons n cycle (o a) hp hl
    have h2 := ih (injectOne n cycle (o a)) (hf.2.1 ▸ hp)
      (by rw [hf.2.2.1, hf.2.1]; exact hl)
    simp only [List.foldl_cons]
    omega

theorem inject_fold_mem (cycle : Nat) (o : Nat → InjAttempt) :
    ∀ (l : List Nat) (n : NPUNode) (p : Nat) (pkt : Packet),
      pkt ∈ (l.foldl (fun m k => injectOne m cycle (o k)) n).out_fifos.getD p [] →
      pkt ∈ n.out_fifos.getD p [] ∨
        (pkt.src = n.id ∧ pkt.dst ≠ n.id ∧ pkt.dst < N_NPUS ∧
         pkt.inject_cycle = cycle) := by
  intro l
  induction l with
  | nil => intro n p pkt h; exact Or.inl h
  | cons a l ih =>
    intro n p pkt h
    simp only [List.foldl_cons] at h
    rcases ih (injectOne n cycle (o a)) p pkt h with h1 | h1
    · rcases injectOne_mem n cycle (o a) p pkt h1 with h2 | h2
      · exact Or.inl h2
      · exact Or.inr h2
    · rw [(injectOne_fields n cycle (o a)).1] at h1
      exact Or.inr h1

/-- C6: a single call of `NPUNode.inject` creates at most `INJECT_BATCH`
packets and queues at most that many; `pkts_injected` rises by exactly
the number of packets actually queued; every queued packet is either
pre-existing or fresh with `dst ≠ self` and `dst < N_NPUS`; a
non-skipped attempt whose target queue already holds `FIFO_DEPTH`
entries leaves the FIFOs and `pkts_injected` unchanged (discard) while
still consuming a sequence number, and otherwise appends the fresh
packet (with destination port `dst % n_ports`) and increments
`pkts_injected` exactly once; and the destination choice is a bijection
onto the node ids other than `self` (the uniform retry loop's range). -/
theorem C6_inject_spec (n : NPUNode) (cycle : Nat) (o : Nat → InjAttempt)
    (hp : 0 < n.n_ports) (hl : n.out_fifos.length = n.n_ports)
    (hid : n.id < N_NPUS) :
    (n.inject cycle o).seq ≤ n.seq + INJECT_BATCH ∧
    (n.inject cycle o).pkts_injected ≤ n.pkts_injected + INJECT_BATCH ∧
    (n.inject cycle o).pkts_injected + nodeOcc n
      = n.pkts_injected + nodeOcc (n.inject cycle o) ∧
    (∀ p pkt, pkt ∈ (n.inject cycle o).out_fifos.getD p [] →
      pkt ∈ n.out_fifos.getD p [] ∨
        (pkt.src = n.id ∧ pkt.dst ≠ n.id ∧ pkt.dst < N_NPUS ∧
         pkt.inject_cycle = cycle)) ∧
    (∀ a : InjAttempt, a.skip = true → injectOne n cycle a = n) ∧
    (∀ a : InjAttempt, a.skip = false →
      FIFO_DEPTH ≤ (n.out_fifos.getD
        (dstOf n.id (a.pick % (N_NPUS - 1)) % n.n_ports) []).length →
      (injectOne n cycle a).out_fifos = n.out_fifos ∧
      (injectOne n cycle a).pkts_injected = n.pkts_injected ∧
      (injectOne n cycle a).seq = n.seq + 1) ∧
    (∀ a : InjAttempt, a.skip = false →
      (n.out_fifos.getD
        (dstOf n.id (a.pick % (N_NPUS - 1)) % n.n_ports) []).length < FIFO_DEPTH →
      (injectOne n cycle a).out_fifos.getD
          (dstOf n.id (a.pick % (N_NPUS - 1)) % n.n_ports) []
        = n.out_fifos.getD (dstOf n.id (a.pick % (N_NPUS - 1)) % n.n_ports) []
          ++ [⟨n.id, dstOf n.id (a.pick % (N_NPUS - 1)), n.seq, cycle⟩] ∧
      (injectOne n cycle a).pkts_injected = n.pkts_injected + 1 ∧
      (injectOne n cycle a).seq = n.seq + 1) ∧
    (∀ c1 c2, dstOf n.id c1 = dstOf n.id c2 → c1 = c2) ∧
    (∀ c, c < N_NPUS - 1 → dstOf n.id c ≠ n.id ∧ dstOf n.id c < N_NPUS) ∧
    (∀ d, d < N_NPUS → d ≠ n.id → ∃ c, c < N_NPUS - 1 ∧ dstOf n.id c = d) := by
  refine ⟨?_, ?_, ?_, ?_, ?_, ?_, ?_, ?_, ?_, ?_⟩
  · have := inject_fold_seq cycle o (List.range INJECT_BATCH) n
    simpa [NPUNode.inject] using this.2
  · have := inject_fold_injected cycle o (List.range INJECT_BATCH) n
    simpa [NPUNode.inject] using this.2
  · exact inject_fold_cons cycle o (List.range INJECT_BATCH) n hp hl
  · exact inject_fold_mem cycle o (List.range INJECT_BATCH) n
  · intro a ha
    unfold injectOne
    rw [if_pos ha]
  · intro a ha hfull
    simp only [injectOne, ha, Bool.false_eq_true, if_false]
    rw [if_neg (by omega)]
    exact ⟨rfl, rfl, rfl⟩
  · intro a ha hroom
    simp only [injectOne, ha, Bool.false_eq_true, if_false]
    rw [if_pos hroom]
    refine ⟨?_, rfl, rfl⟩
    have hport : dstOf n.id (a.pick % (N_NPUS - 1)) % n.n_ports
        < n.out_fifos.length := by
      rw [hl]
      exact Nat.mod_lt _ hp
    exact getD_set_self _ _ _ _ hport
  · exact fun c1 c2 h => dstOf_inj n.id c1 c2 h
  · exact fun c hc => ⟨dstOf_ne _ _, dstOf_lt _ _ hc⟩
  · exact fun d hd hne => dstOf_surj n.id d hd hne hid

/-- C6 witness: the inject specification applied at a freshly
constructed node with an all-skip oracle. -/
theorem C6_inject_spec_witness :
    ((mkNPUNode 0 N_NPUS).inject 0 (fun _ => ⟨true, 0⟩)).seq
      ≤ (mkNPUNode 0 N_NPUS).seq + INJECT_BATCH ∧
    ((mkNPUNode 0 N_NPUS).inject 0 (fun _ => ⟨true, 0⟩)).pkts_injected
        + nodeOcc (mkNPUNode 0 N_NPUS)
      = (mkNPUNode 0 N_NPUS).pkts_injected
        + nodeOcc ((mkNPUNode 0 N_NPUS).inject 0 (fun _ => ⟨true, 0⟩)) := by
  have h := C6_inject_spec (mkNPUNode 0 N_NPUS) 0 (fun _ => ⟨true, 0⟩)
    (by decide) (by decide) (by decide)
  exact ⟨h.1, h.2.2.1⟩

end FM16

namespace FM16

-- ══════════════════ Helper lemmas: sums and occupancy ══════════════════

theorem sumRange_succ (n : Nat) (f : Nat → Nat) :
    sumRange (n + 1) f = sumRange n f + f n := by
  unfold sumRange
  rw [List.range_succ]
  simp

theorem sumRange_congr (n : Nat) (f g : Nat → Nat)
    (h : ∀ i, i < n → f i = g i) : sumRange n f = sumRange n g := by
  induction n with
  | zero => rfl
  | succ m ih =>
    rw [sumRange_succ, sumRange_succ, ih (fun i hi => h i (by omega)),
        h m (by omega)]

theorem sumRange_upd (n : Nat) (f : Nat → Nat) (i0 v : Nat) (h : i0 < n) :
    sumRange n (fun i => if i = i0 then v else f i) + f i0
      = sumRange n f + v := by
  induction n with
  | zero => omega
  | succ m ih =>
    rw [sumRange_succ, sumRange_succ]
    by_cases hm : i0 = m
    · subst hm
      have : sumRange i0 (fun i => if i = i0 then v else f i) = sumRange i0 f :=
        sumRange_congr _ _ _ (fun i hi => by rw [if_neg (by omega)])
      rw [this]
      simp
      omega
    · have := ih (by omega)
      rw [if_neg (fun hh => hm hh.symm)]
      omega

theorem range_split (n o : Nat) (h : o < n) :
    List.range n = List.range o ++ o :: List.range' (o + 1) (n - o - 1) := by
  have h2 : n - o = (n - o - 1) + 1 := by omega
  have h1 := List.range'_append 0 o (n - o) 1
  simp only [Nat.zero_add, Nat.one_mul] at h1
  rw [List.range_eq_range' n, List.range_eq_range' o]
  calc List.range' 0 n = List.range' 0 (n - o + o) := by
        rw [Nat.sub_add_cancel (le_of_lt h)]
    _ = List.range' 0 o ++ List.range' o (n - o) := h1.symm
    _ = List.range' 0 o ++ List.range' o ((n - o - 1) + 1) := by rw [← h2]
    _ = List.range' 0 o ++ (o :: List.range' (o + 1) (n - o - 1)) := by
        rw [List.range'_succ o (n - o - 1) 1]

/-- Effect of a single VOQ cell overwrite on total occupancy. -/
theorem occupancy_upd (s s' : SW5809s) (ip o : Nat) (v : List Packet)
    (hip : ip < s.n_ports) (ho : o < s.n_ports)
    (hv : s'.voqs = upd2 s.voqs ip o v) (hn : s'.n_ports = s.n_ports) :
    s'.occupancy + (s.voqs ip o).length = s.occupancy + v.length := by
  unfold SW5809s.occupancy
  rw [hn, hv]
  have hrow : ∀ i, i < s.n_ports → i ≠ ip →
      sumRange s.n_ports (fun j => (upd2 s.voqs ip o v i j).length)
        = sumRange s.n_ports (fun j => (s.voqs i j).length) := by
    intro i _ hne
    apply sumRange_congr
    intro j _
    simp [upd2, hne]
  have hiprow :
      sumRange s.n_ports (fun j => (upd2 s.voqs ip o v ip j).length)
          + (s.voqs ip o).length
        = sumRange s.n_ports (fun j => (s.voqs ip j).length) + v.length := by
    have : (fun j => (upd2 s.voqs ip o v ip j).length)
        = fun j => if j = o then v.length else (s.voqs ip j).length := by
      funext j
      by_cases hj : j = o <;> simp [upd2, hj]
    rw [this]
    exact sumRange_upd s.n_ports (fun j => (s.voqs ip j).length) o v.length ho
  have houter : (fun i => sumRange s.n_ports
        (fun j => (upd2 s.voqs ip o v i j).length))
      = fun i => if i = ip
          then sumRange s.n_ports (fun j => (upd2 s.voqs ip o v ip j).length)
          else sumRange s.n_ports (fun j => (s.voqs i j).length) := by
    funext i
    by_cases hi : i = ip
    · rw [if_pos hi, hi]
    · rw [if_neg hi]
      apply sumRange_congr
      intro j _
      simp [upd2, hi]
  rw [houter]
  have hfin : sumRange s.n_ports (fun i => if i = ip
        then sumRange s.n_ports (fun j => (upd2 s.voqs ip o v ip j).length)
        else sumRange s.n_ports (fun j => (s.voqs i j).length))
      + sumRange s.n_ports (fun j => (s.voqs ip j).length)
    = sumRange s.n_ports
        (fun i => sumRange s.n_ports (fun j => (s.voqs i j).length))
      + sumRange s.n_ports (fun j => (upd2 s.voqs ip o v ip j).length) :=
    sumRange_upd _ _ _ _ hip
  omega

/-- Effect of a single VOQ cell overwrite on one column's occupancy. -/
theorem colOcc_upd (s s' : SW5809s) (ip o : Nat) (v : List Packet)
    (hip : ip < s.n_ports)
    (hv : s'.voqs = upd2 s.voqs ip o v) (hn : s'.n_ports = s.n_ports) :
    (colOcc s' o + (s.voqs ip o).length = colOcc s o + v.length) ∧
    (∀ j, j ≠ o → colOcc s' j = colOcc s j) := by
  unfold colOcc
  rw [hn, hv]
  constructor
  · have : (fun i => (upd2 s.voqs ip o v i o).length)
        = fun i => if i = ip then v.length else (s.voqs i o).length := by
      funext i
      by_cases hi : i = ip <;> simp [upd2, hi]
    rw [this]
    exact sumRange_upd s.n_ports (fun i => (s.voqs i o).length) ip v.length hip
  · intro j hj
    apply sumRange_congr
    intro i _
    simp [upd2, hj]

end FM16

namespace FM16

-- ══════════════════ Helper lemmas: the egress arbitration scan ══════════════════

theorem scanFrom_some (s : SW5809s) (o d : Nat) :
    ∀ (fuel offset ip : Nat) (pkt : Packet) (rest : List Packet),
      scanFrom s o d offset fuel = some (ip, pkt, rest) →
      ∃ k, offset ≤ k ∧ k < offset + fuel ∧
        ip = (s.rr o + k) % s.n_ports ∧
        ip / s.ports_per_npu ≠ d ∧
        s.voqs ip o = pkt :: rest ∧
        (∀ k', offset ≤ k' → k' < k →
          ((s.rr o + k') % s.n_ports) / s.ports_per_npu = d ∨
          s.voqs ((s.rr o + k') % s.n_ports) o = []) := by
  intro fuel
  induction fuel with
  | zero =>
    intro offset ip pkt rest h
    simp [scanFrom] at h
  | succ m ih =>
    intro offset ip pkt rest h
    simp only [scanFrom] at h
    by_cases hskip : ((s.rr o + offset) % s.n_ports) / s.ports_per_npu = d
    · rw [if_pos hskip] at h
      obtain ⟨k, hk1, hk2, hk3, hk4, hk5, hk6⟩ := ih (offset + 1) ip pkt rest h
      refine ⟨k, by omega, by omega, hk3, hk4, hk5, ?_⟩
      intro k' h1 h2
      by_cases hke : k' = offset
      · subst hke
        exact Or.inl hskip
      · exact hk6 k' (by omega) h2
    · rw [if_neg hskip] at h
      cases hcell : s.voqs ((s.rr o + offset) % s.n_ports) o with
      | nil =>
        simp only [hcell] at h
        obtain ⟨k, hk1, hk2, hk3, hk4, hk5, hk6⟩ := ih (offset + 1) ip pkt rest h
        refine ⟨k, by omega, by omega, hk3, hk4, hk5, ?_⟩
        intro k' h1 h2
        by_cases hke : k' = offset
        · subst hke
          exact Or.inr hcell
        · exact hk6 k' (by omega) h2
      | cons p ps =>
        simp only [hcell, Option.some.injEq, Prod.mk.injEq] at h
        obtain ⟨h1, h2, h3⟩ := h
        subst h1
        refine ⟨offset, le_refl _, by omega, rfl, hskip, ?_, ?_⟩
        · rw [hcell, h2, h3]
        · intro k' hk1 hk2
          omega

theorem scanFrom_none (s : SW5809s) (o d : Nat) :
    ∀ (fuel offset : Nat), scanFrom s o d offset fuel = none →
      ∀ k, offset ≤ k → k < offset + fuel →
        ((s.rr o + k) % s.n_ports) / s.ports_per_npu = d ∨
        s.voqs ((s.rr o + k) % s.n_ports) o = [] := by
  intro fuel
  induction fuel with
  | zero =>
    intro offset _ k h1 h2
    omega
  | succ m ih =>
    intro offset h k h1 h2
    simp only [scanFrom] at h
    by_cases hskip : ((s.rr o + offset) % s.n_ports) / s.ports_per_npu = d
    · rw [if_pos hskip] at h
      by_cases hke : k = offset
      · subst hke
        exact Or.inl hskip
      · exact ih (offset + 1) h k (by omega) (by omega)
    · rw [if_neg hskip] at h
      cases hcell : s.voqs ((s.rr o + offset) % s.n_ports) o with
      | nil =>
        simp only [hcell] at h
        by_cases hke : k = offset
        · subst hke
          exact Or.inr hcell
        · exact ih (offset + 1) h k (by omega) (by omega)
      | cons p ps =>
        rw [hcell] at h
        exact Option.noConfusion h

theorem scanFrom_congr (s1 s2 : SW5809s) (o d : Nat)
    (hn : s2.n_ports = s1.n_ports) (hppn : s2.ports_per_npu = s1.ports_per_npu)
    (hrr : s2.rr o = s1.rr o) (hv : ∀ i, s2.voqs i o = s1.voqs i o) :
    ∀ (fuel offset : Nat),
      scanFrom s2 o d offset fuel = scanFrom s1 o d offset fuel := by
  intro fuel
  induction fuel with
  | zero => intro offset; rfl
  | succ m ih =>
    intro offset
    simp only [scanFrom, hn, hppn, hrr, hv]
    by_cases hskip : ((s1.rr o + offset) % s1.n_ports) / s1.ports_per_npu = d
    · rw [if_pos hskip, if_pos hskip]
      exact ih (offset + 1)
    · rw [if_neg hskip, if_neg hskip]
      cases s1.voqs ((s1.rr o + offset) % s1.n_ports) o with
      | nil => exact ih (offset + 1)
      | cons p ps => rfl

-- ══════════════════ Helper lemmas: schedStep and its fold ══════════════════

theorem schedStep_fields (acc : SW5809s × List (Nat × Packet)) (o : Nat) :
    (schedStep acc o).1.n_ports = acc.1.n_ports ∧
    (schedStep acc o).1.ports_per_npu = acc.1.ports_per_npu ∧
    (schedStep acc o).1.ecmp_mode = acc.1.ecmp_mode ∧
    (schedStep acc o).1.ingress_rr = acc.1.ingress_rr ∧
    (schedStep acc o).1.global_rr = acc.1.global_rr ∧
    (schedStep acc o).1.pkts_enqueued = acc.1.pkts_enqueued ∧
    (schedStep acc o).1.pkts_dropped = acc.1.pkts_dropped ∧
    (schedStep acc o).1.port_enq_count = acc.1.port_enq_count := by
  simp only [schedStep]
  split <;> simp

theorem schedStep_none (acc : SW5809s × List (Nat × Packet)) (o : Nat)
    (h : scanGrant acc.1 o (o / acc.1.ports_per_npu) = none) :
    schedStep acc o = acc := by
  simp only [schedStep, h]

theorem schedStep_some (acc : SW5809s × List (Nat × Packet)) (o ip : Nat)
    (pkt : Packet) (rest : List Packet)
    (h : scanGrant acc.1 o (o / acc.1.ports_per_npu) = some (ip, pkt, rest)) :
    (schedStep acc o).1.voqs = upd2 acc.1.voqs ip o rest ∧
    (schedStep acc o).1.rr = upd1 acc.1.rr o ((ip + 1) % acc.1.n_ports) ∧
    (schedStep acc o).1.pkts_switched = acc.1.pkts_switched + 1 ∧
    (schedStep acc o).2 = acc.2 ++ [(o / acc.1.ports_per_npu, pkt)] := by
  simp [schedStep, h]

theorem schedStep_other (acc : SW5809s × List (Nat × Packet)) (o j : Nat)
    (hne : j ≠ o) :
    (∀ i, (schedStep acc o).1.voqs i j = acc.1.voqs i j) ∧
    (schedStep acc o).1.rr j = acc.1.rr j := by
  simp only [schedStep]
  split
  · exact ⟨fun i => rfl, rfl⟩
  · constructor
    · intro i
      simp [upd2, hne]
    · simp [upd1, hne]

theorem schedFold_fields :
    ∀ (L : List Nat) (acc : SW5809s × List (Nat × Packet)),
      (L.foldl schedStep acc).1.n_ports = acc.1.n_ports ∧
      (L.foldl schedStep acc).1.ports_per_npu = acc.1.ports_per_npu ∧
      (L.foldl schedStep acc).1.ecmp_mode = acc.1.ecmp_mode ∧
      (L.foldl schedStep acc).1.ingress_rr = acc.1.ingress_rr ∧
      (L.foldl schedStep acc).1.global_rr = acc.1.global_rr ∧
      (L.foldl schedStep acc).1.pkts_enqueued = acc.1.pkts_enqueued ∧
      (L.foldl schedStep acc).1.pkts_dropped = acc.1.pkts_dropped ∧
      (L.foldl schedStep acc).1.port_enq_count = acc.1.port_enq_count := by
  intro L
  induction L with
  | nil => intro acc; exact ⟨rfl, rfl, rfl, rfl, rfl, rfl, rfl, rfl⟩
  | cons a L ih =>
    intro acc
    have h1 := schedStep_fields acc a
    have h2 := ih (schedStep acc a)
    simp only [List.foldl_cons]
    exact ⟨h2.1.trans h1.1, h2.2.1.trans h1.2.1, h2.2.2.1.trans h1.2.2.1,
           h2.2.2.2.1.trans h1.2.2.2.1, h2.2.2.2.2.1.trans h1.2.2.2.2.1,
           h2.2.2.2.2.2.1.trans h1.2.2.2.2.2.1,
           h2.2.2.2.2.2.2.1.trans h1.2.2.2.2.2.2.1,
           h2.2.2.2.2.2.2.2.trans h1.2.2.2.2.2.2.2⟩

theorem schedFold_other (j : Nat) :
    ∀ (L : List Nat) (acc : SW5809s × List (Nat × Packet)), j ∉ L →
      (∀ i, (L.foldl schedStep acc).1.voqs i j = acc.1.voqs i j) ∧
      (L.foldl schedStep acc).1.rr j = acc.1.rr j := by
  intro L
  induction L with
  | nil => intro acc _; exact ⟨fun i => rfl, rfl⟩
  | cons a L ih =>
    intro acc hj
    have hja : j ≠ a := fun hh => hj (hh ▸ List.mem_cons_self a L)
    have h1 := schedStep_other acc a j hja
    have h2 := ih (schedStep acc a) (fun hh => hj (List.mem_cons_of_mem a hh))
    simp only [List.foldl_cons]
    exact ⟨fun i => (h2.1 i).trans (h1.1 i), h2.2.trans h1.2⟩

theorem schedFold_tail_len :
    ∀ (L : List Nat) (acc : SW5809s × List (Nat × Packet)),
      (L.foldl schedStep acc).2.length ≤ acc.2.length + L.length := by
  intro L
  induction L with
  | nil => intro acc; simp
  | cons a L ih =>
    intro acc
    have h2 := ih (schedStep acc a)
    have h1 : (schedStep acc a).2.length ≤ acc.2.length + 1 := by
      simp only [schedStep]
      split
      · simp
      · simp
    simp only [List.foldl_cons, List.length_cons]
    omega

end FM16

namespace FM16

theorem schedStep_tail (acc : SW5809s × List (Nat × Packet)) (o : Nat) :
    ∃ t, (schedStep acc o).2 = acc.2 ++ t := by
  simp only [schedStep]
  split
  · exact ⟨[], by simp⟩
  · exact ⟨_, rfl⟩

theorem schedFold_tail_append :
    ∀ (L : List Nat) (acc : SW5809s × List (Nat × Packet)),
      ∃ t, (L.foldl schedStep acc).2 = acc.2 ++ t := by
  intro L
  induction L with
  | nil => intro acc; exact ⟨[], by simp⟩
  | cons a L ih =>
    intro acc
    obtain ⟨t1, h1⟩ := schedStep_tail acc a
    obtain ⟨t2, h2⟩ := ih (schedStep acc a)
    exact ⟨t1 ++ t2, by simp [List.foldl_cons, h2, h1]⟩

theorem schedStep_cons (P : Packet → Prop) (acc : SW5809s × List (Nat × Packet))
    (o : Nat) (ho : o < acc.1.n_ports)
    (hv : ∀ i j pkt, pkt ∈ acc.1.voqs i j → P pkt)
    (hd : ∀ g ∈ acc.2, P g.2) :
    ((schedStep acc o).1.occupancy + (schedStep acc o).2.length
       = acc.1.occupancy + acc.2.length) ∧
    ((schedStep acc o).1.pkts_switched + acc.2.length
       = acc.1.pkts_switched + (schedStep acc o).2.length) ∧
    (∀ i j pkt, pkt ∈ (schedStep acc o).1.voqs i j → P pkt) ∧
    (∀ g ∈ (schedStep acc o).2, P g.2) := by
  cases hg : scanGrant acc.1 o (o / acc.1.ports_per_npu) with
  | none =>
    rw [schedStep_none acc o hg]
    exact ⟨rfl, rfl, hv, hd⟩
  | some g =>
    obtain ⟨ip, pkt, rest⟩ := g
    obtain ⟨hvoqs, hrr, hsw, htl⟩ := schedStep_some acc o ip pkt rest hg
    obtain ⟨k, -, -, hip, -, hcell, -⟩ :=
      scanFrom_some acc.1 o (o / acc.1.ports_per_npu) acc.1.n_ports 0 ip pkt
        rest hg
    have hip_lt : ip < acc.1.n_ports := by
      rw [hip]
      exact Nat.mod_lt _ (by omega)
    have hocc := occupancy_upd acc.1 (schedStep acc o).1 ip o rest hip_lt ho
      hvoqs (schedStep_fields acc o).1
    rw [hcell] at hocc
    simp only [List.length_cons] at hocc
    have hpkt : P pkt := hv ip o pkt (by rw [hcell]; exact List.mem_cons_self _ _)
    refine ⟨?_, ?_, ?_, ?_⟩
    · rw [htl]
      simp only [List.length_append, List.length_cons, List.length_nil]
      omega
    · rw [htl, hsw]
      simp only [List.length_append, List.length_cons, List.length_nil]
      omega
    · intro i j q hq
      rw [hvoqs] at hq
      by_cases hij : i = ip ∧ j = o
      · simp only [upd2, if_pos hij] at hq
        exact hv ip o q (by rw [hcell]; exact List.mem_cons_of_mem _ hq)
      · simp only [upd2, if_neg hij] at hq
        exact hv i j q hq
    · intro g hgmem
      rw [htl] at hgmem
      rcases List.mem_append.mp hgmem with hh | hh
      · exact hd g hh
      · simp only [List.mem_singleton] at hh
        subst hh
        exact hpkt

theorem schedFold_cons (P : Packet → Prop) :
    ∀ (L : List Nat) (acc : SW5809s × List (Nat × Packet)),
      (∀ o ∈ L, o < acc.1.n_ports) →
      (∀ i j pkt, pkt ∈ acc.1.voqs i j → P pkt) →
      (∀ g ∈ acc.2, P g.2) →
      ((L.foldl schedStep acc).1.occupancy + (L.foldl schedStep acc).2.length
         = acc.1.occupancy + acc.2.length) ∧
      ((L.foldl schedStep acc).1.pkts_switched + acc.2.length
         = acc.1.pkts_switched + (L.foldl schedStep acc).2.length) ∧
      (∀ i j pkt, pkt ∈ (L.foldl schedStep acc).1.voqs i j → P pkt) ∧
      (∀ g ∈ (L.foldl schedStep acc).2, P g.2) := by
  intro L
  induction L with
  | nil => intro acc _ hv hd; exact ⟨rfl, rfl, hv, hd⟩
  | cons a L ih =>
    intro acc hL hv hd
    have h1 := schedStep_cons P acc a (hL a (List.mem_cons_self a L)) hv hd
    have h2 := ih (schedStep acc a)
      (fun o hoL => (schedStep_fields acc a).1 ▸ hL o (List.mem_cons_of_mem a hoL))
      h1.2.2.1 h1.2.2.2
    simp only [List.foldl_cons]
    exact ⟨by omega, by omega, h2.2.2.1, h2.2.2.2⟩

/-- Global conservation/fidelity facts about one `schedule()` call. -/
theorem schedule_cons (P : Packet → Prop) (s : SW5809s)
    (hv : ∀ i j pkt, pkt ∈ s.voqs i j → P pkt) :
    (s.schedule).1.occupancy + (s.schedule).2.length = s.occupancy ∧
    (s.schedule).1.pkts_switched = s.pkts_switched + (s.schedule).2.length ∧
    (∀ i j pkt, pkt ∈ (s.schedule).1.voqs i j → P pkt) ∧
    (∀ g ∈ (s.schedule).2, P g.2) := by
  have h := schedFold_cons P (List.range s.n_ports) (s, [])
    (fun o hoL => List.mem_range.mp hoL) hv (by simp)
  unfold SW5809s.schedule
  refine ⟨?_, ?_, h.2.2.1, h.2.2.2⟩
  · have := h.1
    simpa using this
  · have := h.2.1
    simpa using this

end FM16

namespace FM16

/-- What one `schedule()` call does at a single egress port `o`: the
arbitration outcome is `scanGrant` evaluated on the pre-call state, the
round-robin pointer is advanced to one past the granted ingress port (or
left alone), and exactly the granted VOQ is popped. -/
theorem schedule_at (s : SW5809s) (o : Nat) (h : o < s.n_ports) :
    (scanGrant s o (o / s.ports_per_npu) = none →
      (s.schedule).1.rr o = s.rr o ∧
      (∀ i, (s.schedule).1.voqs i o = s.voqs i o)) ∧
    (∀ ip pkt rest,
      scanGrant s o (o / s.ports_per_npu) = some (ip, pkt, rest) →
      (s.schedule).1.rr o = (ip + 1) % s.n_ports ∧
      (s.schedule).1.voqs ip o = rest ∧
      (∀ i, i ≠ ip → (s.schedule).1.voqs i o = s.voqs i o) ∧
      (o / s.ports_per_npu, pkt) ∈ (s.schedule).2) := by
  have hsplit := range_split s.n_ports o h
  have hnotin_pre : o ∉ List.range o := by simp
  have hnotin_post : o ∉ List.range' (o + 1) (s.n_ports - o - 1) := by
    intro hmem
    have := (List.mem_range'_1).mp hmem
    omega
  have hpre := schedFold_other o (List.range o) (s, []) hnotin_pre
  have hpref := schedFold_fields (List.range o) (s, [])
  set pre := (List.range o).foldl schedStep (s, []) with hpre_def
  have hscan_eq : scanGrant pre.1 o (o / pre.1.ports_per_npu)
      = scanGrant s o (o / s.ports_per_npu) := by
    unfold scanGrant
    rw [hpref.2.1]
    have := scanFrom_congr s pre.1 o (o / s.ports_per_npu) hpref.1 hpref.2.1
      hpre.2 hpre.1 s.n_ports 0
    rw [hpref.1]
    exact this
  have hsched_eq : s.schedule
      = (List.range' (o + 1) (s.n_ports - o - 1)).foldl schedStep
          (schedStep pre o) := by
    unfold SW5809s.schedule
    rw [hsplit, List.foldl_append, List.foldl_cons]
  constructor
  · intro hnone
    have hmid : schedStep pre o = pre :=
      schedStep_none pre o (by rw [hscan_eq]; exact hnone)
    have hpost := schedFold_other o
      (List.range' (o + 1) (s.n_ports - o - 1)) pre hnotin_post
    rw [hsched_eq, hmid]
    exact ⟨hpost.2.trans hpre.2, fun i => (hpost.1 i).trans (hpre.1 i)⟩
  · intro ip pkt rest hsome
    have hmid := schedStep_some pre o ip pkt rest
      (by rw [hscan_eq]; exact hsome)
    have hpost := schedFold_other o
      (List.range' (o + 1) (s.n_ports - o - 1)) (schedStep pre o) hnotin_post
    rw [hsched_eq]
    refine ⟨?_, ?_, ?_, ?_⟩
    · rw [hpost.2, hmid.2.1]
      have hat : upd1 pre.1.rr o ((ip + 1) % pre.1.n_ports) o
          = (ip + 1) % pre.1.n_ports := by
        simp [upd1]
      rw [hat, hpref.1]
    · rw [hpost.1 ip, hmid.1]
      have hat : upd2 pre.1.voqs ip o rest ip o = rest := by
        simp [upd2]
      rw [hat]
    · intro i hi
      rw [hpost.1 i, hmid.1]
      have hat : upd2 pre.1.voqs ip o rest i o = pre.1.voqs i o := by
        simp [upd2, hi]
      rw [hat]
      exact hpre.1 i
    · obtain ⟨t, ht⟩ := schedFold_tail_append
        (List.range' (o + 1) (s.n_ports - o - 1)) (schedStep pre o)
      rw [ht, hmid.2.2.2]
      have : o / pre.1.ports_per_npu = o / s.ports_per_npu := by
        rw [hpref.2.1]
      rw [← this]
      simp

end FM16

namespace FM16

/-- C5: each egress port's arbiter scans ingress ports in circular order
starting at that port's round-robin pointer, skips ingress ports of the
destination node, grants the first non-empty VOQ (popping exactly that
VOQ and emitting the grant), and sets the pointer to one past the
granted ingress port modulo the port count; an egress port that grants
nothing leaves its pointer unchanged. -/
theorem C5_rr_arbiter (s : SW5809s) (o : Nat) (h : o < s.n_ports) :
    (scanGrant s o (o / s.ports_per_npu) = none →
      (s.schedule).1.rr o = s.rr o ∧
      (∀ k, k < s.n_ports →
        ((s.rr o + k) % s.n_ports) / s.ports_per_npu = o / s.ports_per_npu ∨
        s.voqs ((s.rr o + k) % s.n_ports) o = [])) ∧
    (∀ ip pkt rest,
      scanGrant s o (o / s.ports_per_npu) = some (ip, pkt, rest) →
      (s.schedule).1.rr o = (ip + 1) % s.n_ports ∧
      (s.schedule).1.voqs ip o = rest ∧
      (∀ i, i ≠ ip → (s.schedule).1.voqs i o = s.voqs i o) ∧
      (o / s.ports_per_npu, pkt) ∈ (s.schedule).2 ∧
      (∃ k, k < s.n_ports ∧ ip = (s.rr o + k) % s.n_ports ∧
        ip / s.ports_per_npu ≠ o / s.ports_per_npu ∧
        s.voqs ip o = pkt :: rest ∧
        (∀ k', k' < k →
          ((s.rr o + k') % s.n_ports) / s.ports_per_npu = o / s.ports_per_npu ∨
          s.voqs ((s.rr o + k') % s.n_ports) o = []))) := by
  have hat := schedule_at s o h
  constructor
  · intro hnone
    refine ⟨(hat.1 hnone).1, ?_⟩
    intro k hk
    exact scanFrom_none s o (o / s.ports_per_npu) s.n_ports 0 hnone k
      (by omega) (by omega)
  · intro ip pkt rest hsome
    have h2 := hat.2 ip pkt rest hsome
    refine ⟨h2.1, h2.2.1, h2.2.2.1, h2.2.2.2, ?_⟩
    obtain ⟨k, hk0, hk1, hk2, hk3, hk4, hk5⟩ :=
      scanFrom_some s o (o / s.ports_per_npu) s.n_ports 0 ip pkt rest hsome
    exact ⟨k, by omega, hk2, hk3, hk4, fun k' hk' => hk5 k' (by omega) hk'⟩

/-- C5 witness: on a freshly constructed switch every VOQ is empty, so
egress port 0 grants nothing and its pointer stays at 0. -/
theorem C5_rr_arbiter_witness :
    ((mkSW5809s "independent").schedule).1.rr 0
      = (mkSW5809s "independent").rr 0 := by
  have h := C5_rr_arbiter (mkSW5809s "independent") 0 (by decide)
  exact (h.1 (by decide)).1

theorem colOcc_congr (s1 s2 : SW5809s) (j : Nat) (hn : s2.n_ports = s1.n_ports)
    (hv : ∀ i, s2.voqs i j = s1.voqs i j) : colOcc s2 j = colOcc s1 j := by
  unfold colOcc
  rw [hn]
  exact sumRange_congr _ _ _ (fun i _ => by rw [hv i])

/-- Each egress column loses at most one packet per `schedule()` call. -/
theorem schedule_colOcc (s : SW5809s) (j : Nat) :
    colOcc (s.schedule).1 j ≤ colOcc s j ∧
    colOcc s j ≤ colOcc (s.schedule).1 j + 1 := by
  by_cases hj : j < s.n_ports
  · have hsplit := range_split s.n_ports j hj
    have hnotin_pre : j ∉ List.range j := by simp
    have hnotin_post : j ∉ List.range' (j + 1) (s.n_ports - j - 1) := by
      intro hmem
      have := (List.mem_range'_1).mp hmem
      omega
    have hpre := schedFold_other j (List.range j) (s, []) hnotin_pre
    have hpref := schedFold_fields (List.range j) (s, [])
    set pre := (List.range j).foldl schedStep (s, []) with hpre_def
    have hsched_eq : s.schedule
        = (List.range' (j + 1) (s.n_ports - j - 1)).foldl schedStep
            (schedStep pre j) := by
      unfold SW5809s.schedule
      rw [hsplit, List.foldl_append, List.foldl_cons]
    have hpre_col : colOcc pre.1 j = colOcc s j :=
      colOcc_congr s pre.1 j hpref.1 hpre.1
    have hpost := schedFold_other j
      (List.range' (j + 1) (s.n_ports - j - 1)) (schedStep pre j) hnotin_post
    have hpostf := schedFold_fields
      (List.range' (j + 1) (s.n_ports - j - 1)) (schedStep pre j)
    have hpost_col : colOcc (s.schedule).1 j = colOcc (schedStep pre j).1 j := by
      rw [hsched_eq]
      exact colOcc_congr (schedStep pre j).1 _ j hpostf.1 hpost.1
    cases hg : scanGrant pre.1 j (j / pre.1.ports_per_npu) with
    | none =>
      rw [schedStep_none pre j hg] at hpost_col
      omega
    | some g =>
      obtain ⟨ip, pkt, rest⟩ := g
      have hmid := schedStep_some pre j ip pkt rest hg
      obtain ⟨k, -, -, hip, -, hcell, -⟩ :=
        scanFrom_some pre.1 j (j / pre.1.ports_per_npu) pre.1.n_ports 0 ip pkt
          rest hg
      have hnp : 0 < pre.1.n_ports := by
        rw [hpref.1]
        simpa using Nat.lt_of_le_of_lt (Nat.zero_le j) hj
      have hip_lt : ip < pre.1.n_ports := by
        rw [hip]
        exact Nat.mod_lt _ hnp
      have hcol := colOcc_upd pre.1 (schedStep pre j).1 ip j rest hip_lt
        hmid.1 (schedStep_fields pre j).1
      rw [hcell] at hcol
      simp only [List.length_cons] at hcol
      have := hcol.1
      omega
  · have hnot : j ∉ List.range s.n_ports := by
      simp only [List.mem_range]
      omega
    have hall := schedFold_other j (List.range s.n_ports) (s, []) hnot
    have hfields := schedFold_fields (List.range s.n_ports) (s, [])
    have heq : colOcc (s.schedule).1 j = colOcc s j := by
      unfold SW5809s.schedule
      exact colOcc_congr s _ j hfields.1 hall.1
    omega

set_option maxRecDepth 100000 in
/-- C3 counterexample: after two coordinated enqueues from NPU 1 (both
arriving on ingress port 8) to NPU 0, a single `schedule()` call grants
ingress port 8 TWICE — egress ports 0 and 1 each pop a packet from VOQ
row 8 in the same cycle — so the granted ingress ports are not distinct. -/
theorem C3_cex :
    (dgState.voqs 8 0).length = 1 ∧ (dgState.voqs 8 1).length = 1 ∧
    ((dgState.schedule).1.voqs 8 0).length = 0 ∧
    ((dgState.schedule).1.voqs 8 1).length = 0 ∧
    (dgState.schedule).2.length = 2 := by
  decide

/-- C3 (amended): in any single `schedule()` call each egress port
grants at most one packet — every VOQ column loses at most one entry —
and the total number of grants is at most the port count; but a single
ingress port may be granted by several egress ports in the same cycle. -/
theorem C3_egress_exclusive (s : SW5809s) :
    (∀ j, colOcc (s.schedule).1 j ≤ colOcc s j ∧
          colOcc s j ≤ colOcc (s.schedule).1 j + 1) ∧
    (s.schedule).2.length ≤ s.n_ports := by
  refine ⟨fun j => schedule_colOcc s j, ?_⟩
  have := schedFold_tail_len (List.range s.n_ports) (s, [])
  unfold SW5809s.schedule
  simpa using this

end FM16

namespace FM16

-- ══════════════════ Helper lemmas: modifyAt and delivery ══════════════════

theorem modifyAt_length {α : Type} (f : α → α) :
    ∀ (l : List α) (i : Nat), (modifyAt f l i).length = l.length := by
  intro l
  induction l with
  | nil => intro i; rfl
  | cons x xs ih =>
    intro i
    cases i with
    | zero => rfl
    | succ j => simpa [modifyAt] using ih j

theorem modifyAt_mem {α : Type} (f : α → α) :
    ∀ (l : List α) (i : Nat) (x : α),
      x ∈ modifyAt f l i → x ∈ l ∨ ∃ y ∈ l, x = f y := by
  intro l
  induction l with
  | nil => intro i x h; exact Or.inl h
  | cons z zs ih =>
    intro i x h
    cases i with
    | zero =>
      rcases List.mem_cons.mp h with h1 | h1
      · exact Or.inr ⟨z, List.mem_cons_self z zs, h1⟩
      · exact Or.inl (List.mem_cons_of_mem z h1)
    | succ j =>
      rcases List.mem_cons.mp h with h1 | h1
      · exact Or.inl (h1 ▸ List.mem_cons_self z zs)
      · rcases ih j x h1 with h2 | ⟨y, hy, hxy⟩
        · exact Or.inl (List.mem_cons_of_mem z h2)
        · exact Or.inr ⟨y, List.mem_cons_of_mem z hy, hxy⟩

theorem sumMap_modifyAt_pres {α : Type} (g : α → Nat) (f : α → α)
    (hg : ∀ x, g (f x) = g x) :
    ∀ (l : List α) (i : Nat),
      ((modifyAt f l i).map g).sum = (l.map g).sum := by
  intro l
  induction l with
  | nil => intro i; rfl
  | cons x xs ih =>
    intro i
    cases i with
    | zero => simp [modifyAt, hg]
    | succ j => simp [modifyAt, ih j]

theorem sumMap_modifyAt_succ {α : Type} (g : α → Nat) (f : α → α)
    (hg : ∀ x, g (f x) = g x + 1) :
    ∀ (l : List α) (i : Nat), i < l.length →
      ((modifyAt f l i).map g).sum = (l.map g).sum + 1 := by
  intro l
  induction l with
  | nil => intro i h; simp at h
  | cons x xs ih =>
    intro i h
    cases i with
    | zero => simp [modifyAt, hg]; omega
    | succ j =>
      have := ih j (by simpa using h)
      simp only [modifyAt, List.map_cons, List.sum_cons, this]
      omega

theorem RxFrom_refl (B : Nat) (n : NPUNode) : RxFrom B n n :=
  ⟨rfl, rfl, rfl, rfl, fun _ hl => Or.inl hl⟩

theorem RxFrom_trans (B : Nat) (n0 n1 n2 : NPUNode)
    (h1 : RxFrom B n0 n1) (h2 : RxFrom B n1 n2) : RxFrom B n0 n2 := by
  refine ⟨h2.1.trans h1.1, h2.2.1.trans h1.2.1, h2.2.2.1.trans h1.2.2.1,
         h2.2.2.2.1.trans h1.2.2.2.1, ?_⟩
  intro l hl
  rcases h2.2.2.2.2 l hl with h | h
  · exact h1.2.2.2.2 l h
  · exact Or.inr h

theorem RxFrom_rx (B cycle : Nat) (n : NPUNode) (pkt : Packet)
    (hlat : pkt.inject_cycle + B ≤ cycle) :
    RxFrom B n (n.rx pkt cycle) := by
  refine ⟨rfl, rfl, rfl, rfl, ?_⟩
  intro l hl
  simp only [NPUNode.rx, List.mem_append, List.mem_singleton] at hl
  rcases hl with h | h
  · exact Or.inl h
  · refine Or.inr ?_
    subst h
    unfold Packet.latency
    omega

theorem deliverFold_facts (cycle B : Nat) :
    ∀ (infl : List (Nat × Packet)) (cur : List NPUNode)
      (keep : List (Nat × Packet)),
      (∀ e ∈ infl, e.2.dst < cur.length ∧ e.2.inject_cycle + B ≤ e.1) →
      (infl.foldl
        (fun acc e =>
          if e.1 ≤ cycle then
            (modifyAt (fun n => n.rx e.2 cycle) acc.1 e.2.dst, acc.2)
          else (acc.1, acc.2 ++ [e]))
        (cur, keep)).1.length = cur.length ∧
      nInj (infl.foldl
        (fun acc e =>
          if e.1 ≤ cycle then
            (modifyAt (fun n => n.rx e.2 cycle) acc.1 e.2.dst, acc.2)
          else (acc.1, acc.2 ++ [e]))
        (cur, keep)).1 = nInj cur ∧
      fifoOcc (infl.foldl
        (fun acc e =>
          if e.1 ≤ cycle then
            (modifyAt (fun n => n.rx e.2 cycle) acc.1 e.2.dst, acc.2)
          else (acc.1, acc.2 ++ [e]))
        (cur, keep)).1 = fifoOcc cur ∧
      nDel (infl.foldl
        (fun acc e =>
          if e.1 ≤ cycle then
            (modifyAt (fun n => n.rx e.2 cycle) acc.1 e.2.dst, acc.2)
          else (acc.1, acc.2 ++ [e]))
        (cur, keep)).1
        + (infl.foldl
        (fun acc e =>
          if e.1 ≤ cycle then
            (modifyAt (fun n => n.rx e.2 cycle) acc.1 e.2.dst, acc.2)
          else (acc.1, acc.2 ++ [e]))
        (cur, keep)).2.length
        = nDel cur + keep.length + infl.length ∧
      (∀ e ∈ (infl.foldl
        (fun acc e =>
          if e.1 ≤ cycle then
            (modifyAt (fun n => n.rx e.2 cycle) acc.1 e.2.dst, acc.2)
          else (acc.1, acc.2 ++ [e]))
        (cur, keep)).2, e ∈ keep ∨ e ∈ infl) ∧
      (∀ n1 ∈ (infl.foldl
        (fun acc e =>
          if e.1 ≤ cycle then
            (modifyAt (fun n => n.rx e.2 cycle) acc.1 e.2.dst, acc.2)
          else (acc.1, acc.2 ++ [e]))
        (cur, keep)).1, ∃ n0 ∈ cur, RxFrom B n0 n1) := by
  intro infl
  induction infl with
  | nil =>
    intro cur keep _
    refine ⟨rfl, rfl, rfl, rfl, fun e he => Or.inl he, ?_⟩
    intro n1 h1
    exact ⟨n1, h1, RxFrom_refl B n1⟩
  | cons e rest ih =>
    intro cur keep hwf
    have he := hwf e (List.mem_cons_self e rest)
    have hrest : ∀ e' ∈ rest, e'.2.dst < cur.length ∧
        e'.2.inject_cycle + B ≤ e'.1 :=
      fun e' h' => hwf e' (List.mem_cons_of_mem e h')
    simp only [List.foldl_cons]
    by_cases ht : e.1 ≤ cycle
    · rw [if_pos ht]
      set cur1 := modifyAt (fun n => n.rx e.2 cycle) cur e.2.dst with hcur1
      have hlen1 : cur1.length = cur.length := modifyAt_length _ cur e.2.dst
      have ihr := ih cur1 keep (by rw [hlen1]; exact hrest)
      have hInj : nInj cur1 = nInj cur := by
        unfold nInj
        exact sumMap_modifyAt_pres (fun n => n.pkts_injected)
          (fun n => n.rx e.2 cycle) (fun x => rfl) cur e.2.dst
      have hOcc : fifoOcc cur1 = fifoOcc cur := by
        unfold fifoOcc
        exact sumMap_modifyAt_pres nodeOcc
          (fun n => n.rx e.2 cycle) (fun x => rfl) cur e.2.dst
      have hDel : nDel cur1 = nDel cur + 1 := by
        unfold nDel
        exact sumMap_modifyAt_succ (fun n => n.pkts_delivered)
          (fun n => n.rx e.2 cycle) (fun x => rfl) cur e.2.dst he.1
      refine ⟨ihr.1.trans hlen1, ihr.2.1.trans hInj, ihr.2.2.1.trans hOcc,
             ?_, ?_, ?_⟩
      · rw [ihr.2.2.2.1, hDel]
        simp only [List.length_cons]
        omega
      · intro e' he'
        rcases ihr.2.2.2.2.1 e' he' with h | h
        · exact Or.inl h
        · exact Or.inr (List.mem_cons_of_mem e h)
      · intro n1 h1
        obtain ⟨n0, hn0, hr⟩ := ihr.2.2.2.2.2 n1 h1
        rcases modifyAt_mem _ cur e.2.dst n0 hn0 with h2 | ⟨y, hy, hxy⟩
        · exact ⟨n0, h2, hr⟩
        · refine ⟨y, hy, RxFrom_trans B y n0 n1 ?_ hr⟩
          rw [hxy]
          exact RxFrom_rx B cycle y e.2 (by omega)
    · rw [if_neg ht]
      have ihr := ih cur (keep ++ [e]) hrest
      refine ⟨ihr.1, ihr.2.1, ihr.2.2.1, ?_, ?_, ihr.2.2.2.2.2⟩
      · rw [ihr.2.2.2.1]
        simp only [List.length_append, List.length_cons, List.length_nil,
          List.length_cons]
        omega
      · intro e' he'
        rcases ihr.2.2.2.2.1 e' he' with h | h
        · rcases List.mem_append.mp h with h2 | h2
          · exact Or.inl h2
          · simp only [List.mem_singleton] at h2
            exact Or.inr (h2 ▸ List.mem_cons_self e rest)
        · exact Or.inr (List.mem_cons_of_mem e h)

/-- All facts about one delivery sweep (shared by the mesh in-flight
list and the switch-to-NPU list). -/
theorem deliverSweep_facts (cycle B : Nat) (infl : List (Nat × Packet))
    (npus : List NPUNode)
    (hwf : ∀ e ∈ infl, e.2.dst < npus.length ∧ e.2.inject_cycle + B ≤ e.1) :
    (deliverSweep cycle npus infl).1.length = npus.length ∧
    nInj (deliverSweep cycle npus infl).1 = nInj npus ∧
    fifoOcc (deliverSweep cycle npus infl).1 = fifoOcc npus ∧
    nDel (deliverSweep cycle npus infl).1
        + (deliverSweep cycle npus infl).2.length
      = nDel npus + infl.length ∧
    (∀ e ∈ (deliverSweep cycle npus infl).2, e ∈ infl) ∧
    (∀ n1 ∈ (deliverSweep cycle npus infl).1, ∃ n0 ∈ npus, RxFrom B n0 n1) := by
  have h := deliverFold_facts cycle B infl npus [] hwf
  unfold deliverSweep
  refine ⟨h.1, h.2.1, h.2.2.1, ?_, ?_, h.2.2.2.2.2⟩
  · have := h.2.2.2.1
    simpa using this
  · intro e he
    rcases h.2.2.2.2.1 e he with hh | hh
    · simp at hh
    · exact hh

end FM16

namespace FM16

-- ══════════════════ Helper lemmas: NPUNode.tx and the mesh tx phase ══════════════════

theorem tx_empty (n : NPUNode) (port : Nat)
    (h : n.out_fifos.getD port [] = []) : n.tx port = (none, n) := by
  simp only [NPUNode.tx, h]

theorem tx_cons (n : NPUNode) (port : Nat) (pkt : Packet) (rest : List Packet)
    (h : n.out_fifos.getD port [] = pkt :: rest) :
    n.tx port
      = (some pkt, { n with out_fifos := n.out_fifos.set port rest }) := by
  simp only [NPUNode.tx, h]

theorem getD_ne_nil_lt (l : List (List Packet)) (p : Nat)
    (h : l.getD p [] ≠ []) : p < l.length := by
  by_contra hge
  push_neg at hge
  rw [List.getD_eq_default] at h
  · exact h rfl
  · exact hge

theorem pop_facts (n : NPUNode) (port : Nat) (pkt : Packet) (rest : List Packet)
    (h : n.out_fifos.getD port [] = pkt :: rest) :
    nodeOcc { n with out_fifos := n.out_fifos.set port rest } + 1 = nodeOcc n ∧
    (∀ p q, q ∈ (n.out_fifos.set port rest).getD p [] →
      q ∈ n.out_fifos.getD p []) ∧
    (n.out_fifos.set port rest).length = n.out_fifos.length := by
  have hlt : port < n.out_fifos.length :=
    getD_ne_nil_lt n.out_fifos port (by rw [h]; exact List.cons_ne_nil _ _)
  refine ⟨?_, ?_, by simp⟩
  · show ((n.out_fifos.set port rest).map List.length).sum + 1
      = (n.out_fifos.map List.length).sum
    have := length_sum_set n.out_fifos port rest hlt
    rw [h] at this
    simp only [List.length_cons] at this
    omega
  · intro p q hq
    by_cases hp : p = port
    · subst hp
      rw [getD_set_self _ _ _ _ hlt] at hq
      rw [h]
      exact List.mem_cons_of_mem _ hq
    · rw [getD_set_ne _ _ _ _ _ hp] at hq
      exact hq

theorem fmTxPort_facts (cycle port : Nat) :
    ∀ (links : Nat) (n : NPUNode) (infl : List (Nat × Packet)),
      (∀ p pkt, pkt ∈ n.out_fifos.getD p [] →
        pkt.dst ≠ n.id ∧ pkt.dst < N_NPUS ∧ pkt.inject_cycle ≤ cycle) →
      (fmTxPort cycle port links n infl).1.id = n.id ∧
      (fmTxPort cycle port links n infl).1.n_ports = n.n_ports ∧
      (fmTxPort cycle port links n infl).1.out_fifos.length
        = n.out_fifos.length ∧
      (fmTxPort cycle port links n infl).1.pkts_injected = n.pkts_injected ∧
      (fmTxPort cycle port links n infl).1.pkts_delivered = n.pkts_delivered ∧
      (fmTxPort cycle port links n infl).1.latencies = n.latencies ∧
      (∀ p pkt, pkt ∈ (fmTxPort cycle port links n infl).1.out_fifos.getD p [] →
        pkt ∈ n.out_fifos.getD p []) ∧
      (nodeOcc (fmTxPort cycle port links n infl).1
          + (fmTxPort cycle port links n infl).2.length
        = nodeOcc n + infl.length) ∧
      (∀ e ∈ (fmTxPort cycle port links n infl).2, e ∈ infl ∨
        (e.2.dst < N_NPUS ∧ e.2.inject_cycle + FM_LINK_LATENCY ≤ e.1)) := by
  intro links
  induction links with
  | zero =>
    intro n infl _
    exact ⟨rfl, rfl, rfl, rfl, rfl, rfl, fun p pkt h => h, rfl,
           fun e he => Or.inl he⟩
  | succ links ih =>
    intro n infl hwf
    cases hcell : n.out_fifos.getD port [] with
    | nil =>
      have heq : fmTxPort cycle port (links + 1) n infl = (n, infl) := by
        simp only [fmTxPort, tx_empty n port hcell]
      rw [heq]
      exact ⟨rfl, rfl, rfl, rfl, rfl, rfl, fun p pkt h => h, rfl,
             fun e he => Or.inl he⟩
    | cons pkt rest =>
      have hw := hwf port pkt (by rw [hcell]; exact List.mem_cons_self _ _)
      have hpop := pop_facts n port pkt rest hcell
      have heq : fmTxPort cycle port (links + 1) n infl
          = fmTxPort cycle port links
              { n with out_fifos := n.out_fifos.set port rest }
              (infl ++ [(cycle + FM_LINK_LATENCY +
                ((n.out_fifos.set port rest).getD port []).length, pkt)]) := by
        simp only [fmTxPort, tx_cons n port pkt rest hcell]
        rw [if_neg hw.1]
      rw [heq]
      have hwf1 : ∀ p q,
          q ∈ ({ n with out_fifos := n.out_fifos.set port rest} :
            NPUNode).out_fifos.getD p [] →
          q.dst ≠ ({ n with out_fifos := n.out_fifos.set port rest} :
            NPUNode).id ∧ q.dst < N_NPUS ∧ q.inject_cycle ≤ cycle :=
        fun p q hq => hwf p q (hpop.2.1 p q hq)
      have hih := ih { n with out_fifos := n.out_fifos.set port rest }
        (infl ++ [(cycle + FM_LINK_LATENCY +
          ((n.out_fifos.set port rest).getD port []).length, pkt)]) hwf1
      refine ⟨hih.1, hih.2.1, hih.2.2.1.trans hpop.2.2, hih.2.2.2.1,
             hih.2.2.2.2.1, hih.2.2.2.2.2.1, ?_, ?_, ?_⟩
      · intro p q hq
        exact hpop.2.1 p q (hih.2.2.2.2.2.2.1 p q hq)
      · have := hih.2.2.2.2.2.2.2.1
        simp only [List.length_append, List.length_cons, List.length_nil]
          at this
        have hocc := hpop.1
        omega
      · intro e he
        rcases hih.2.2.2.2.2.2.2.2 e he with h1 | h1
        · rcases List.mem_append.mp h1 with h2 | h2
          · exact Or.inl h2
          · simp only [List.mem_singleton] at h2
            subst h2
            refine Or.inr ⟨hw.2.1, ?_⟩
            show pkt.inject_cycle + FM_LINK_LATENCY
              ≤ cycle + FM_LINK_LATENCY
                + ((n.out_fifos.set port rest).getD port []).length
            have := hw.2.2
            omega
        · exact Or.inr h1

end FM16

namespace FM16

theorem fmTxFold_facts (cycle : Nat) :
    ∀ (L : List Nat) (n : NPUNode) (infl : List (Nat × Packet)),
      (∀ p pkt, pkt ∈ n.out_fifos.getD p [] →
        pkt.dst ≠ n.id ∧ pkt.dst < N_NPUS ∧ pkt.inject_cycle ≤ cycle) →
      (L.foldl (fun acc port =>
        fmTxPort cycle port FM_LINKS_PER_PAIR acc.1 acc.2) (n, infl)).1.id
          = n.id ∧
      (L.foldl (fun acc port =>
        fmTxPort cycle port FM_LINKS_PER_PAIR acc.1 acc.2) (n, infl)).1.n_ports
          = n.n_ports ∧
      (L.foldl (fun acc port =>
        fmTxPort cycle port FM_LINKS_PER_PAIR acc.1 acc.2)
          (n, infl)).1.out_fifos.length = n.out_fifos.length ∧
      (L.foldl (fun acc port =>
        fmTxPort cycle port FM_LINKS_PER_PAIR acc.1 acc.2)
          (n, infl)).1.pkts_injected = n.pkts_injected ∧
      (L.foldl (fun acc port =>
        fmTxPort cycle port FM_LINKS_PER_PAIR acc.1 acc.2)
          (n, infl)).1.pkts_delivered = n.pkts_delivered ∧
      (L.foldl (fun acc port =>
        fmTxPort cycle port FM_LINKS_PER_PAIR acc.1 acc.2)
          (n, infl)).1.latencies = n.latencies ∧
      (∀ p pkt, pkt ∈ (L.foldl (fun acc port =>
        fmTxPort cycle port FM_LINKS_PER_PAIR acc.1 acc.2)
          (n, infl)).1.out_fifos.getD p [] → pkt ∈ n.out_fifos.getD p []) ∧
      (nodeOcc (L.foldl (fun acc port =>
        fmTxPort cycle port FM_LINKS_PER_PAIR acc.1 acc.2) (n, infl)).1
          + (L.foldl (fun acc port =>
        fmTxPort cycle port FM_LINKS_PER_PAIR acc.1 acc.2) (n, infl)).2.length
        = nodeOcc n + infl.length) ∧
      (∀ e ∈ (L.foldl (fun acc port =>
        fmTxPort cycle port FM_LINKS_PER_PAIR acc.1 acc.2) (n, infl)).2,
        e ∈ infl ∨
        (e.2.dst < N_NPUS ∧ e.2.inject_cycle + FM_LINK_LATENCY ≤ e.1)) := by
  intro L
  induction L with
  | nil =>
    intro n infl _
    exact ⟨rfl, rfl, rfl, rfl, rfl, rfl, fun p pkt h => h, rfl,
           fun e he => Or.inl he⟩
  | cons a L ih =>
    intro n infl hwf
    have h1 := fmTxPort_facts cycle a FM_LINKS_PER_PAIR n infl hwf
    have hwf1 : ∀ p pkt,
        pkt ∈ (fmTxPort cycle a FM_LINKS_PER_PAIR n infl).1.out_fifos.getD p [] →
        pkt.dst ≠ (fmTxPort cycle a FM_LINKS_PER_PAIR n infl).1.id ∧
        pkt.dst < N_NPUS ∧ pkt.inject_cycle ≤ cycle := by
      intro p pkt hp
      have := hwf p pkt (h1.2.2.2.2.2.2.1 p pkt hp)
      rw [h1.1]
      exact this
    have hih := ih (fmTxPort cycle a FM_LINKS_PER_PAIR n infl).1
      (fmTxPort cycle a FM_LINKS_PER_PAIR n infl).2 hwf1
    simp only [Prod.mk.eta] at hih
    simp only [List.foldl_cons]
    refine ⟨hih.1.trans h1.1, hih.2.1.trans h1.2.1, hih.2.2.1.trans h1.2.2.1,
           hih.2.2.2.1.trans h1.2.2.2.1, hih.2.2.2.2.1.trans h1.2.2.2.2.1,
           hih.2.2.2.2.2.1.trans h1.2.2.2.2.2.1, ?_, ?_, ?_⟩
    · intro p pkt hp
      exact h1.2.2.2.2.2.2.1 p pkt (hih.2.2.2.2.2.2.1 p pkt hp)
    · have ha := h1.2.2.2.2.2.2.2.1
      have hb := hih.2.2.2.2.2.2.2.1
      omega
    · intro e he
      rcases hih.2.2.2.2.2.2.2.2 e he with h2 | h2
      · exact h1.2.2.2.2.2.2.2.2 e h2
      · exact Or.inr h2

set_option maxHeartbeats 1000000 in
theorem fmTxAll_facts (cycle : Nat) :
    ∀ (npus : List NPUNode) (infl : List (Nat × Packet)),
      (∀ n ∈ npus, ∀ p pkt, pkt ∈ n.out_fifos.getD p [] →
        pkt.dst ≠ n.id ∧ pkt.dst < N_NPUS ∧ pkt.inject_cycle ≤ cycle) →
      (fmTxAll cycle npus infl).1.length = npus.length ∧
      nInj (fmTxAll cycle npus infl).1 = nInj npus ∧
      nDel (fmTxAll cycle npus infl).1 = nDel npus ∧
      (fifoOcc (fmTxAll cycle npus infl).1 + (fmTxAll cycle npus infl).2.length
        = fifoOcc npus + infl.length) ∧
      (∀ e ∈ (fmTxAll cycle npus infl).2, e ∈ infl ∨
        (e.2.dst < N_NPUS ∧ e.2.inject_cycle + FM_LINK_LATENCY ≤ e.1)) ∧
      (∀ n1 ∈ (fmTxAll cycle npus infl).1, ∃ n0 ∈ npus,
        n1.id = n0.id ∧ n1.n_ports = n0.n_ports ∧
        n1.out_fifos.length = n0.out_fifos.length ∧
        n1.latencies = n0.latencies ∧ n1.pkts_injected = n0.pkts_injected ∧
        n1.pkts_delivered = n0.pkts_delivered ∧
        (∀ p pkt, pkt ∈ n1.out_fifos.getD p [] →
          pkt ∈ n0.out_fifos.getD p [])) := by
  intro npus
  induction npus with
  | nil =>
    intro infl _
    exact ⟨rfl, rfl, rfl, rfl, fun e he => Or.inl he, fun n1 h => absurd h
      (List.not_mem_nil n1)⟩
  | cons n rest ih =>
    intro infl hwf
    have hn := hwf n (List.mem_cons_self n rest)
    have h1 := fmTxFold_facts cycle (List.range N_NPUS) n infl hn
    rw [show (List.range N_NPUS).foldl (fun acc port =>
          fmTxPort cycle port FM_LINKS_PER_PAIR acc.1 acc.2) (n, infl)
        = fmTxNode cycle n infl from rfl] at h1
    have hrest : ∀ m ∈ rest, ∀ p pkt, pkt ∈ m.out_fifos.getD p [] →
        pkt.dst ≠ m.id ∧ pkt.dst < N_NPUS ∧ pkt.inject_cycle ≤ cycle :=
      fun m hm => hwf m (List.mem_cons_of_mem n hm)
    have hih := ih (fmTxNode cycle n infl).2 hrest
    simp only [fmTxAll]
    constructor
    · simp only [List.length_cons]
      rw [hih.1]
    refine ⟨?_, ?_, ?_, ?_, ?_⟩
    · simp only [nInj, List.map_cons, List.sum_cons]
      have := hih.2.1
      unfold nInj at this
      rw [this]
      rw [h1.2.2.2.1]
    · simp only [nDel, List.map_cons, List.sum_cons]
      have := hih.2.2.1
      unfold nDel at this
      rw [this]
      rw [h1.2.2.2.2.1]
    · simp only [fifoOcc, List.map_cons, List.sum_cons]
      have ha := hih.2.2.2.1
      unfold fifoOcc at ha
      have hb := h1.2.2.2.2.2.2.2.1
      omega
    · intro e he
      rcases hih.2.2.2.2.1 e he with h2 | h2
      · have hb := h1.2.2.2.2.2.2.2.2
        exact hb e h2
      · exact Or.inr h2
    · intro n1 hmem
      rcases List.mem_cons.mp hmem with h2 | h2
      · exact ⟨n, List.mem_cons_self n rest, h2 ▸ h1.1, h2 ▸ h1.2.1,
          h2 ▸ h1.2.2.1, h2 ▸ h1.2.2.2.2.2.1, h2 ▸ h1.2.2.2.1,
          h2 ▸ h1.2.2.2.2.1, h2 ▸ h1.2.2.2.2.2.2.1⟩
      · obtain ⟨n0, hn0, hfacts⟩ := hih.2.2.2.2.2 n1 h2
        exact ⟨n0, List.mem_cons_of_mem n hn0, hfacts⟩

end FM16

namespace FM16

-- ══════════════════ Helper lemmas: the injection phase over all nodes ══════════════════

theorem injectAll_facts (cycle : Nat) (o : Nat → Nat → InjAttempt) :
    ∀ (npus : List NPUNode),
      (∀ n ∈ npus, 0 < n.n_ports ∧ n.out_fifos.length = n.n_ports) →
      (npus.map (fun n => n.inject cycle (o n.id))).length = npus.length ∧
      (nInj (npus.map (fun n => n.inject cycle (o n.id))) + fifoOcc npus
        = nInj npus + fifoOcc (npus.map (fun n => n.inject cycle (o n.id)))) ∧
      nDel (npus.map fun n => n.inject cycle (o n.id)) = nDel npus := by
  intro npus
  induction npus with
  | nil => intro _; exact ⟨rfl, rfl, rfl⟩
  | cons n rest ih =>
    intro hwf
    have hn := hwf n (List.mem_cons_self n rest)
    have hcons := inject_fold_cons cycle (o n.id) (List.range INJECT_BATCH) n
      hn.1 hn.2
    have hfields := inject_fold_fields cycle (o n.id) (List.range INJECT_BATCH) n
    have hih := ih (fun m hm => hwf m (List.mem_cons_of_mem n hm))
    simp only [List.map_cons, List.length_cons]
    refine ⟨by rw [hih.1], ?_, ?_⟩
    · simp only [nInj, fifoOcc, List.map_cons, List.sum_cons] at hih ⊢
      have h1 : (NPUNode.inject n cycle (o n.id)).pkts_injected + nodeOcc n
          = n.pkts_injected + nodeOcc (NPUNode.inject n cycle (o n.id)) := hcons
      omega
    · simp only [nDel, List.map_cons, List.sum_cons] at hih ⊢
      rw [hih.2.2]
      have : (NPUNode.inject n cycle (o n.id)).pkts_delivered
          = n.pkts_delivered := hfields.2.2.2.1
      omega

/-- After injection, each node is the `inject`-image of a node of the
input list; all the per-node structure the invariants need follows. -/
theorem injectAll_mem (cycle : Nat) (o : Nat → Nat → InjAttempt)
    (npus : List NPUNode) (n1 : NPUNode)
    (h : n1 ∈ npus.map (fun n => n.inject cycle (o n.id))) :
    ∃ n0 ∈ npus, n1 = n0.inject cycle (o n0.id) := by
  rcases List.mem_map.mp h with ⟨n0, hn0, heq⟩
  exact ⟨n0, hn0, heq.symm⟩

theorem inject_fields (cycle : Nat) (oc : Nat → InjAttempt) (n : NPUNode) :
    (n.inject cycle oc).id = n.id ∧
    (n.inject cycle oc).n_ports = n.n_ports ∧
    (n.inject cycle oc).out_fifos.length = n.out_fifos.length ∧
    (n.inject cycle oc).pkts_delivered = n.pkts_delivered ∧
    (n.inject cycle oc).latencies = n.latencies :=
  inject_fold_fields cycle oc (List.range INJECT_BATCH) n

theorem inject_mem (cycle : Nat) (oc : Nat → InjAttempt) (n : NPUNode)
    (p : Nat) (pkt : Packet)
    (h : pkt ∈ (n.inject cycle oc).out_fifos.getD p []) :
    pkt ∈ n.out_fifos.getD p [] ∨
      (pkt.src = n.id ∧ pkt.dst ≠ n.id ∧ pkt.dst < N_NPUS ∧
       pkt.inject_cycle = cycle) :=
  inject_fold_mem cycle oc (List.range INJECT_BATCH) n p pkt h

theorem getD_replicate_nil :
    ∀ (k p : Nat), (List.replicate k ([] : List Packet)).getD p [] = [] := by
  intro k
  induction k with
  | zero => intro p; cases p <;> rfl
  | succ m ih =>
    intro p
    cases p with
    | zero => rfl
    | succ q => exact ih q

-- ══════════════════ The mesh invariant ══════════════════

theorem FMInv_init : FMInv mkFM16System := by
  constructor
  · simp [mkFM16System]
  · intro n hn
    rcases List.mem_map.mp hn with ⟨i, -, heq⟩
    rw [← heq]
    simp [mkNPUNode, N_NPUS]
  · intro n hn p pkt hpkt
    rcases List.mem_map.mp hn with ⟨i, -, heq⟩
    rw [← heq] at hpkt
    simp only [mkNPUNode] at hpkt
    rw [getD_replicate_nil] at hpkt
    exact absurd hpkt (List.not_mem_nil pkt)
  · intro e he
    exact absurd he (List.not_mem_nil e)
  · intro n hn l hl
    rcases List.mem_map.mp hn with ⟨i, -, heq⟩
    rw [← heq] at hl
    exact absurd hl (List.not_mem_nil l)
  · show nInj mkFM16System.npus
      = nDel mkFM16System.npus + fifoOcc mkFM16System.npus
        + mkFM16System.inflight.length
    decide

theorem FMInv_step (s : FM16System) (o : Nat → Nat → InjAttempt)
    (h : FMInv s) : FMInv (s.step o) := by
  have hinj := injectAll_facts s.cycle o s.npus h.wfn
  have hwf1 : ∀ n1 ∈ s.npus.map (fun n => n.inject s.cycle (o n.id)),
      0 < n1.n_ports ∧ n1.out_fifos.length = n1.n_ports := by
    intro n1 hn1
    obtain ⟨n0, hn0, heq⟩ := injectAll_mem s.cycle o s.npus n1 hn1
    have hf := inject_fields s.cycle (o n0.id) n0
    have hw := h.wfn n0 hn0
    subst heq
    exact ⟨hf.2.1 ▸ hw.1, by rw [hf.2.2.1, hf.2.1]; exact hw.2⟩
  have hpkts1 : ∀ n1 ∈ s.npus.map (fun n => n.inject s.cycle (o n.id)),
      ∀ p pkt, pkt ∈ n1.out_fifos.getD p [] →
        pkt.dst ≠ n1.id ∧ pkt.dst < N_NPUS ∧ pkt.inject_cycle ≤ s.cycle := by
    intro n1 hn1 p pkt hpkt
    obtain ⟨n0, hn0, heq⟩ := injectAll_mem s.cycle o s.npus n1 hn1
    have hf := inject_fields s.cycle (o n0.id) n0
    subst heq
    rcases inject_mem s.cycle (o n0.id) n0 p pkt hpkt with h2 | h2
    · have := h.fifo_pkts n0 hn0 p pkt h2
      rw [hf.1]
      exact this
    · rw [hf.1]
      exact ⟨h2.2.1, h2.2.2.1, le_of_eq h2.2.2.2⟩
  have hlats1 : ∀ n1 ∈ s.npus.map (fun n => n.inject s.cycle (o n.id)),
      ∀ l ∈ n1.latencies, (FM_LINK_LATENCY : Int) ≤ l := by
    intro n1 hn1 l hl
    obtain ⟨n0, hn0, heq⟩ := injectAll_mem s.cycle o s.npus n1 hn1
    have hf := inject_fields s.cycle (o n0.id) n0
    subst heq
    rw [hf.2.2.2.2] at hl
    exact h.lats n0 hn0 l hl
  have htx := fmTxAll_facts s.cycle
    (s.npus.map (fun n => n.inject s.cycle (o n.id))) s.inflight hpkts1
  have hts : ∀ e ∈ (fmTxAll s.cycle
      (s.npus.map (fun n => n.inject s.cycle (o n.id))) s.inflight).2,
      e.2.dst < N_NPUS ∧ e.2.inject_cycle + FM_LINK_LATENCY ≤ e.1 := by
    intro e he
    rcases htx.2.2.2.2.1 e he with h2 | h2
    · exact h.infl e h2
    · exact h2
  have hlen2 : (fmTxAll s.cycle
      (s.npus.map (fun n => n.inject s.cycle (o n.id))) s.inflight).1.length
      = N_NPUS := by
    rw [htx.1, hinj.1, h.len]
  have hdel := deliverSweep_facts s.cycle FM_LINK_LATENCY
    (fmTxAll s.cycle (s.npus.map (fun n => n.inject s.cycle (o n.id)))
      s.inflight).2
    (fmTxAll s.cycle (s.npus.map (fun n => n.inject s.cycle (o n.id)))
      s.inflight).1
    (by
      intro e he
      have := hts e he
      rw [hlen2]
      exact ⟨this.1, this.2⟩)
  constructor
  case len =>
    show (deliverSweep s.cycle _ _).1.length = N_NPUS
    rw [hdel.1, hlen2]
  case wfn =>
    intro n2 hn2
    obtain ⟨n1, hn1, hrx⟩ := hdel.2.2.2.2.2 n2 hn2
    obtain ⟨n0, hn0, hfacts⟩ := htx.2.2.2.2.2 n1 hn1
    have hw := hwf1 n0 hn0
    refine ⟨?_, ?_⟩
    · rw [hrx.2.1, hfacts.2.1]
      exact hw.1
    · rw [hrx.2.2.1, hrx.2.1, hfacts.2.2.1, hfacts.2.1]
      exact hw.2
  case fifo_pkts =>
    intro n2 hn2 p pkt hpkt
    obtain ⟨n1, hn1, hrx⟩ := hdel.2.2.2.2.2 n2 hn2
    obtain ⟨n0, hn0, hfacts⟩ := htx.2.2.2.2.2 n1 hn1
    rw [hrx.2.2.1] at hpkt
    have hp1 := hfacts.2.2.2.2.2.2 p pkt hpkt
    have := hpkts1 n0 hn0 p pkt hp1
    rw [hrx.1, hfacts.1]
    show pkt.dst ≠ n0.id ∧ pkt.dst < N_NPUS ∧ pkt.inject_cycle ≤ s.cycle + 1
    exact ⟨this.1, this.2.1, by omega⟩
  case infl =>
    intro e he
    have := hdel.2.2.2.2.1 e he
    exact hts e this
  case lats =>
    intro n2 hn2 l hl
    obtain ⟨n1, hn1, hrx⟩ := hdel.2.2.2.2.2 n2 hn2
    obtain ⟨n0, hn0, hfacts⟩ := htx.2.2.2.2.2 n1 hn1
    rcases hrx.2.2.2.2 l hl with h2 | h2
    · rw [hfacts.2.2.2.1] at h2
      exact hlats1 n0 hn0 l h2
    · exact h2
  case cons =>
    have h0 := h.cons
    have h1a := hinj.2.1
    have h1b := hinj.2.2
    have h2a := htx.2.1
    have h2b := htx.2.2.1
    have h2c := htx.2.2.2.1
    have h3a := hdel.2.1
    have h3b := hdel.2.2.1
    have h3c := hdel.2.2.2.1
    show nInj (deliverSweep s.cycle _ _).1
      = nDel (deliverSweep s.cycle _ _).1
        + fifoOcc (deliverSweep s.cycle _ _).1
        + (deliverSweep s.cycle _ _).2.length
    omega

theorem FMInv_run (o : Nat → Nat → Nat → InjAttempt) :
    ∀ k, FMInv (fmRun o k) := by
  intro k
  induction k with
  | zero => exact FMInv_init
  | succ m ih => exact FMInv_step (fmRun o m) (o m) ih

end FM16

namespace FM16

-- ══════════════════ Helper lemmas: the switched tx phase ══════════════════

theorem swTxLoop_facts (cycle port : Nat) :
    ∀ (fuel : Nat) (n : NPUNode) (sent : Nat)
      (acc : List (Nat × Nat × Nat × Packet)),
      (∀ p pkt, pkt ∈ n.out_fifos.getD p [] →
        pkt.dst ≠ n.id ∧ pkt.dst < N_NPUS ∧ pkt.inject_cycle ≤ cycle) →
      n.id < N_NPUS →
      (swTxLoop cycle port fuel n sent acc).1.id = n.id ∧
      (swTxLoop cycle port fuel n sent acc).1.n_ports = n.n_ports ∧
      (swTxLoop cycle port fuel n sent acc).1.out_fifos.length
        = n.out_fifos.length ∧
      (swTxLoop cycle port fuel n sent acc).1.pkts_injected
        = n.pkts_injected ∧
      (swTxLoop cycle port fuel n sent acc).1.pkts_delivered
        = n.pkts_delivered ∧
      (swTxLoop cycle port fuel n sent acc).1.latencies = n.latencies ∧
      (∀ p pkt,
        pkt ∈ (swTxLoop cycle port fuel n sent acc).1.out_fifos.getD p [] →
        pkt ∈ n.out_fifos.getD p []) ∧
      (nodeOcc (swTxLoop cycle port fuel n sent acc).1
          + (swTxLoop cycle port fuel n sent acc).2.2.length
        = nodeOcc n + acc.length) ∧
      (∀ e ∈ (swTxLoop cycle port fuel n sent acc).2.2, e ∈ acc ∨
        (e.2.1 < N_NPUS ∧ e.2.2.2.dst ≠ e.2.1 ∧ e.2.2.2.dst < N_NPUS ∧
         e.2.2.2.inject_cycle + SW_LINK_LATENCY ≤ e.1)) := by
  intro fuel
  induction fuel with
  | zero =>
    intro n sent acc _ _
    exact ⟨rfl, rfl, rfl, rfl, rfl, rfl, fun p pkt h => h, rfl,
           fun e he => Or.inl he⟩
  | succ fuel ih =>
    intro n sent acc hwf hid
    by_cases hs : sent < SW_LINKS_PER_NPU
    · cases hcell : n.out_fifos.getD port [] with
      | nil =>
        have heq : swTxLoop cycle port (fuel + 1) n sent acc = (n, sent, acc) := by
          simp only [swTxLoop, tx_empty n port hcell]
          rw [if_pos hs]
        rw [heq]
        exact ⟨rfl, rfl, rfl, rfl, rfl, rfl, fun p pkt h => h, rfl,
               fun e he => Or.inl he⟩
      | cons pkt rest =>
        have hw := hwf port pkt (by rw [hcell]; exact List.mem_cons_self _ _)
        have hpop := pop_facts n port pkt rest hcell
        have heq : swTxLoop cycle port (fuel + 1) n sent acc
            = swTxLoop cycle port fuel
                { n with out_fifos := n.out_fifos.set port rest } (sent + 1)
                (acc ++ [(cycle + SW_LINK_LATENCY, n.id,
                  sent % SW_PORTS_PER_NPU, pkt)]) := by
          simp only [swTxLoop, tx_cons n port pkt rest hcell]
          rw [if_pos hs, if_neg hw.1]
        rw [heq]
        have hwf1 : ∀ p q,
            q ∈ ({ n with out_fifos := n.out_fifos.set port rest} :
              NPUNode).out_fifos.getD p [] →
            q.dst ≠ ({ n with out_fifos := n.out_fifos.set port rest} :
              NPUNode).id ∧ q.dst < N_NPUS ∧ q.inject_cycle ≤ cycle :=
          fun p q hq => hwf p q (hpop.2.1 p q hq)
        have hih := ih { n with out_fifos := n.out_fifos.set port rest }
          (sent + 1)
          (acc ++ [(cycle + SW_LINK_LATENCY, n.id,
            sent % SW_PORTS_PER_NPU, pkt)]) hwf1 hid
        refine ⟨hih.1, hih.2.1, hih.2.2.1.trans hpop.2.2, hih.2.2.2.1,
               hih.2.2.2.2.1, hih.2.2.2.2.2.1, ?_, ?_, ?_⟩
        · intro p q hq
          exact hpop.2.1 p q (hih.2.2.2.2.2.2.1 p q hq)
        · have := hih.2.2.2.2.2.2.2.1
          simp only [List.length_append, List.length_cons, List.length_nil]
            at this
          have hocc := hpop.1
          omega
        · intro e he
          rcases hih.2.2.2.2.2.2.2.2 e he with h1 | h1
          · rcases List.mem_append.mp h1 with h2 | h2
            · exact Or.inl h2
            · simp only [List.mem_singleton] at h2
              subst h2
              refine Or.inr ⟨hid, ?_, hw.2.1, ?_⟩
              · show pkt.dst ≠ n.id
                exact hw.1
              · show pkt.inject_cycle + SW_LINK_LATENCY
                  ≤ cycle + SW_LINK_LATENCY
                have := hw.2.2
                omega
          · exact Or.inr h1
    · have heq : swTxLoop cycle port (fuel + 1) n sent acc = (n, sent, acc) := by
        simp only [swTxLoop]
        rw [if_neg hs]
      rw [heq]
      exact ⟨rfl, rfl, rfl, rfl, rfl, rfl, fun p pkt h => h, rfl,
             fun e he => Or.inl he⟩

end FM16

namespace FM16

theorem swTxFold_facts (cycle : Nat) :
    ∀ (L : List Nat) (n : NPUNode) (sent : Nat)
      (acc : List (Nat × Nat × Nat × Packet)),
      (∀ p pkt, pkt ∈ n.out_fifos.getD p [] →
        pkt.dst ≠ n.id ∧ pkt.dst < N_NPUS ∧ pkt.inject_cycle ≤ cycle) →
      n.id < N_NPUS →
      (L.foldl (fun st port => swTxLoop cycle port
        ((st.1.out_fifos.getD port []).length) st.1 st.2.1 st.2.2)
        (n, sent, acc)).1.id = n.id ∧
      (L.foldl (fun st port => swTxLoop cycle port
        ((st.1.out_fifos.getD port []).length) st.1 st.2.1 st.2.2)
        (n, sent, acc)).1.n_ports = n.n_ports ∧
      (L.foldl (fun st port => swTxLoop cycle port
        ((st.1.out_fifos.getD port []).length) st.1 st.2.1 st.2.2)
        (n, sent, acc)).1.out_fifos.length = n.out_fifos.length ∧
      (L.foldl (fun st port => swTxLoop cycle port
        ((st.1.out_fifos.getD port []).length) st.1 st.2.1 st.2.2)
        (n, sent, acc)).1.pkts_injected = n.pkts_injected ∧
      (L.foldl (fun st port => swTxLoop cycle port
        ((st.1.out_fifos.getD port []).length) st.1 st.2.1 st.2.2)
        (n, sent, acc)).1.pkts_delivered = n.pkts_delivered ∧
      (L.foldl (fun st port => swTxLoop cycle port
        ((st.1.out_fifos.getD port []).length) st.1 st.2.1 st.2.2)
        (n, sent, acc)).1.latencies = n.latencies ∧
      (∀ p pkt, pkt ∈ (L.foldl (fun st port => swTxLoop cycle port
        ((st.1.out_fifos.getD port []).length) st.1 st.2.1 st.2.2)
        (n, sent, acc)).1.out_fifos.getD p [] →
        pkt ∈ n.out_fifos.getD p []) ∧
      (nodeOcc (L.foldl (fun st port => swTxLoop cycle port
        ((st.1.out_fifos.getD port []).length) st.1 st.2.1 st.2.2)
        (n, sent, acc)).1
          + (L.foldl (fun st port => swTxLoop cycle port
        ((st.1.out_fifos.getD port []).length) st.1 st.2.1 st.2.2)
        (n, sent, acc)).2.2.length
        = nodeOcc n + acc.length) ∧
      (∀ e ∈ (L.foldl (fun st port => swTxLoop cycle port
        ((st.1.out_fifos.getD port []).length) st.1 st.2.1 st.2.2)
        (n, sent, acc)).2.2, e ∈ acc ∨
        (e.2.1 < N_NPUS ∧ e.2.2.2.dst ≠ e.2.1 ∧ e.2.2.2.dst < N_NPUS ∧
         e.2.2.2.inject_cycle + SW_LINK_LATENCY ≤ e.1)) := by
  intro L
  induction L with
  | nil =>
    intro n sent acc _ _
    exact ⟨rfl, rfl, rfl, rfl, rfl, rfl, fun p pkt h => h, rfl,
           fun e he => Or.inl he⟩
  | cons a L ih =>
    intro n sent acc hwf hid
    have h1 := swTxLoop_facts cycle a ((n.out_fifos.getD a []).length) n sent
      acc hwf hid
    have hwf1 : ∀ p pkt, pkt ∈ (swTxLoop cycle a
        ((n.out_fifos.getD a []).length) n sent acc).1.out_fifos.getD p [] →
        pkt.dst ≠ (swTxLoop cycle a
          ((n.out_fifos.getD a []).length) n sent acc).1.id ∧
        pkt.dst < N_NPUS ∧ pkt.inject_cycle ≤ cycle := by
      intro p pkt hp
      have := hwf p pkt (h1.2.2.2.2.2.2.1 p pkt hp)
      rw [h1.1]
      exact this
    have hid1 : (swTxLoop cycle a
        ((n.out_fifos.getD a []).length) n sent acc).1.id < N_NPUS := by
      rw [h1.1]
      exact hid
    have hih := ih (swTxLoop cycle a ((n.out_fifos.getD a []).length)
        n sent acc).1
      (swTxLoop cycle a ((n.out_fifos.getD a []).length) n sent acc).2.1
      (swTxLoop cycle a ((n.out_fifos.getD a []).length) n sent acc).2.2
      hwf1 hid1
    simp only [Prod.mk.eta] at hih
    simp only [List.foldl_cons]
    refine ⟨hih.1.trans h1.1, hih.2.1.trans h1.2.1, hih.2.2.1.trans h1.2.2.1,
           hih.2.2.2.1.trans h1.2.2.2.1, hih.2.2.2.2.1.trans h1.2.2.2.2.1,
           hih.2.2.2.2.2.1.trans h1.2.2.2.2.2.1, ?_, ?_, ?_⟩
    · intro p pkt hp
      exact h1.2.2.2.2.2.2.1 p pkt (hih.2.2.2.2.2.2.1 p pkt hp)
    · have ha := h1.2.2.2.2.2.2.2.1
      have hb := hih.2.2.2.2.2.2.2.1
      omega
    · intro e he
      rcases hih.2.2.2.2.2.2.2.2 e he with h2 | h2
      · exact h1.2.2.2.2.2.2.2.2 e h2
      · exact Or.inr h2

end FM16

namespace FM16

set_option maxHeartbeats 1000000 in
theorem swTxAll_facts (cycle : Nat) :
    ∀ (npus : List NPUNode) (acc : List (Nat × Nat × Nat × Packet)),
      (∀ n ∈ npus, ∀ p pkt, pkt ∈ n.out_fifos.getD p [] →
        pkt.dst ≠ n.id ∧ pkt.dst < N_NPUS ∧ pkt.inject_cycle ≤ cycle) →
      (∀ n ∈ npus, n.id < N_NPUS) →
      (swTxAll cycle npus acc).1.length = npus.length ∧
      nInj (swTxAll cycle npus acc).1 = nInj npus ∧
      nDel (swTxAll cycle npus acc).1 = nDel npus ∧
      (fifoOcc (swTxAll cycle npus acc).1 + (swTxAll cycle npus acc).2.length
        = fifoOcc npus + acc.length) ∧
      (∀ e ∈ (swTxAll cycle npus acc).2, e ∈ acc ∨
        (e.2.1 < N_NPUS ∧ e.2.2.2.dst ≠ e.2.1 ∧ e.2.2.2.dst < N_NPUS ∧
         e.2.2.2.inject_cycle + SW_LINK_LATENCY ≤ e.1)) ∧
      (∀ n1 ∈ (swTxAll cycle npus acc).1, ∃ n0 ∈ npus,
        n1.id = n0.id ∧ n1.n_ports = n0.n_ports ∧
        n1.out_fifos.length = n0.out_fifos.length ∧
        n1.latencies = n0.latencies ∧ n1.pkts_injected = n0.pkts_injected ∧
        n1.pkts_delivered = n0.pkts_delivered ∧
        (∀ p pkt, pkt ∈ n1.out_fifos.getD p [] →
          pkt ∈ n0.out_fifos.getD p [])) := by
  intro npus
  induction npus with
  | nil =>
    intro acc _ _
    exact ⟨rfl, rfl, rfl, rfl, fun e he => Or.inl he, fun n1 h => absurd h
      (List.not_mem_nil n1)⟩
  | cons n rest ih =>
    intro acc hwf hids
    have hn := hwf n (List.mem_cons_self n rest)
    have hidn := hids n (List.mem_cons_self n rest)
    have h1 := swTxFold_facts cycle (List.range N_NPUS) n 0 acc hn hidn
    have hsw : swTxNode cycle n acc
        = (((List.range N_NPUS).foldl (fun st port => swTxLoop cycle port
            ((st.1.out_fifos.getD port []).length) st.1 st.2.1 st.2.2)
            (n, 0, acc)).1,
           ((List.range N_NPUS).foldl (fun st port => swTxLoop cycle port
            ((st.1.out_fifos.getD port []).length) st.1 st.2.1 st.2.2)
            (n, 0, acc)).2.2) := by
      simp only [swTxNode]
    have hsw1 : ((List.range N_NPUS).foldl (fun st port => swTxLoop cycle port
          ((st.1.out_fifos.getD port []).length) st.1 st.2.1 st.2.2)
          (n, 0, acc)).1 = (swTxNode cycle n acc).1 := by
      rw [hsw]
    have hsw2 : ((List.range N_NPUS).foldl (fun st port => swTxLoop cycle port
          ((st.1.out_fifos.getD port []).length) st.1 st.2.1 st.2.2)
          (n, 0, acc)).2.2 = (swTxNode cycle n acc).2 := by
      rw [hsw]
    rw [hsw1, hsw2] at h1
    have hrest : ∀ m ∈ rest, ∀ p pkt, pkt ∈ m.out_fifos.getD p [] →
        pkt.dst ≠ m.id ∧ pkt.dst < N_NPUS ∧ pkt.inject_cycle ≤ cycle :=
      fun m hm => hwf m (List.mem_cons_of_mem n hm)
    have hrids : ∀ m ∈ rest, m.id < N_NPUS :=
      fun m hm => hids m (List.mem_cons_of_mem n hm)
    have hih := ih (swTxNode cycle n acc).2 hrest hrids
    simp only [swTxAll]
    constructor
    · simp only [List.length_cons]
      rw [hih.1]
    refine ⟨?_, ?_, ?_, ?_, ?_⟩
    · simp only [nInj, List.map_cons, List.sum_cons]
      have := hih.2.1
      unfold nInj at this
      rw [this]
      have h2 : (swTxNode cycle n acc).1.pkts_injected = n.pkts_injected :=
        h1.2.2.2.1
      rw [h2]
    · simp only [nDel, List.map_cons, List.sum_cons]
      have := hih.2.2.1
      unfold nDel at this
      rw [this]
      have h2 : (swTxNode cycle n acc).1.pkts_delivered = n.pkts_delivered :=
        h1.2.2.2.2.1
      rw [h2]
    · simp only [fifoOcc, List.map_cons, List.sum_cons]
      have ha := hih.2.2.2.1
      unfold fifoOcc at ha
      have hb : nodeOcc (swTxNode cycle n acc).1
          + (swTxNode cycle n acc).2.length = nodeOcc n + acc.length :=
        h1.2.2.2.2.2.2.2.1
      omega
    · intro e he
      rcases hih.2.2.2.2.1 e he with h2 | h2
      · have hb : ∀ e2 ∈ (swTxNode cycle n acc).2, e2 ∈ acc ∨
            (e2.2.1 < N_NPUS ∧ e2.2.2.2.dst ≠ e2.2.1 ∧
             e2.2.2.2.dst < N_NPUS ∧
             e2.2.2.2.inject_cycle + SW_LINK_LATENCY ≤ e2.1) :=
          h1.2.2.2.2.2.2.2.2
        exact hb e h2
      · exact Or.inr h2
    · intro n1 hmem
      rcases List.mem_cons.mp hmem with h2 | h2
      · have hidf : (swTxNode cycle n acc).1.id = n.id := h1.1
        have hnp : (swTxNode cycle n acc).1.n_ports = n.n_ports := h1.2.1
        have hlen : (swTxNode cycle n acc).1.out_fifos.length
            = n.out_fifos.length := h1.2.2.1
        have hlat : (swTxNode cycle n acc).1.latencies = n.latencies :=
          h1.2.2.2.2.2.1
        have hpi : (swTxNode cycle n acc).1.pkts_injected = n.pkts_injected :=
          h1.2.2.2.1
        have hpd : (swTxNode cycle n acc).1.pkts_delivered
            = n.pkts_delivered := h1.2.2.2.2.1
        have hmm : ∀ p pkt,
            pkt ∈ (swTxNode cycle n acc).1.out_fifos.getD p [] →
            pkt ∈ n.out_fifos.getD p [] := h1.2.2.2.2.2.2.1
        exact ⟨n, List.mem_cons_self n rest, h2 ▸ hidf, h2 ▸ hnp, h2 ▸ hlen,
               h2 ▸ hlat, h2 ▸ hpi, h2 ▸ hpd, h2 ▸ hmm⟩
      · obtain ⟨n0, hn0, hfacts⟩ := hih.2.2.2.2.2 n1 h2
        exact ⟨n0, List.mem_cons_of_mem n hn0, hfacts⟩

end FM16

namespace FM16

-- ══════════════════ Helper lemmas: enqueue and the to-switch sweep ══════════════════

theorem occupancy_push (sw : SW5809s) (ip o : Nat) (w : List Packet)
    (hip : ip < sw.n_ports) (ho : o < sw.n_ports) :
    SW5809s.occupancy { sw with voqs := upd2 sw.voqs ip o (sw.voqs ip o ++ w) } = sw.occupancy + w.length := by
  have h := occupancy_upd sw { sw with voqs := upd2 sw.voqs ip o (sw.voqs ip o ++ w) } ip o (sw.voqs ip o ++ w) hip ho rfl rfl
  simp only [List.length_append] at h
  omega

theorem enqueue_facts (sw : SW5809s) (src hint : Nat) (pkt : Packet)
    (hn : sw.n_ports = SW_XBAR_PORTS)
    (hppn : sw.ports_per_npu = SW_PORTS_PER_NPU)
    (hrr : (∀ i d, sw.ingress_rr i d < SW_PORTS_PER_NPU) ∧
      (∀ d, sw.global_rr d < SW_PORTS_PER_NPU))
    (hsrc : src < N_NPUS) (hne : pkt.dst ≠ src) (hdst : pkt.dst < N_NPUS) :
    (sw.enqueue src hint pkt).1.n_ports = sw.n_ports ∧
    (sw.enqueue src hint pkt).1.ports_per_npu = sw.ports_per_npu ∧
    (sw.enqueue src hint pkt).1.pkts_switched = sw.pkts_switched ∧
    (sw.enqueue src hint pkt).1.rr = sw.rr ∧
    ((∀ i d, (sw.enqueue src hint pkt).1.ingress_rr i d < SW_PORTS_PER_NPU) ∧
     (∀ d, (sw.enqueue src hint pkt).1.global_rr d < SW_PORTS_PER_NPU)) ∧
    ((sw.enqueue src hint pkt).1.occupancy
        + (sw.enqueue src hint pkt).1.pkts_dropped
      = sw.occupancy + sw.pkts_dropped + 1) ∧
    (∀ i j q, q ∈ (sw.enqueue src hint pkt).1.voqs i j →
      q ∈ sw.voqs i j ∨ q = pkt) := by
  have hppn8 : SW_PORTS_PER_NPU = 8 := rfl
  have hxp : SW_XBAR_PORTS = 128 := rfl
  have hnn : N_NPUS = 16 := rfl
  have hcond : ¬(pkt.dst = src ∨ N_NPUS ≤ pkt.dst) := by
    push_neg
    exact ⟨hne, hdst⟩
  have hin_lt : src * sw.ports_per_npu + hint % sw.ports_per_npu
      < sw.n_ports := by
    have h1 : hint % sw.ports_per_npu < sw.ports_per_npu :=
      Nat.mod_lt _ (by omega)
    have h2 : src * sw.ports_per_npu ≤ 15 * sw.ports_per_npu :=
      Nat.mul_le_mul_right _ (by omega)
    omega
  unfold SW5809s.enqueue
  rw [if_neg hcond]
  by_cases hmode : sw.ecmp_mode = "independent"
  · simp only [hmode, reduceIte]
    have hout_lt : pkt.dst * sw.ports_per_npu + sw.ingress_rr (src * sw.ports_per_npu + hint % sw.ports_per_npu) pkt.dst < sw.n_ports := by
      have h1 := hrr.1 (src * sw.ports_per_npu + hint % sw.ports_per_npu) pkt.dst
      have h2 : pkt.dst * sw.ports_per_npu ≤ 15 * sw.ports_per_npu :=
        Nat.mul_le_mul_right _ (by omega)
      omega
    split
    · refine ⟨rfl, rfl, rfl, rfl, ⟨?_, ?_⟩, ?_, ?_⟩
      · intro i d
        simp only [upd2]
        split
        · rw [hppn]
          exact Nat.mod_lt _ (by decide)
        · exact hrr.1 i d
      · exact hrr.2
      · show SW5809s.occupancy { sw with voqs := upd2 sw.voqs (src * sw.ports_per_npu + hint % sw.ports_per_npu) (pkt.dst * sw.ports_per_npu + sw.ingress_rr (src * sw.ports_per_npu + hint % sw.ports_per_npu) pkt.dst) (sw.voqs (src * sw.ports_per_npu + hint % sw.ports_per_npu) (pkt.dst * sw.ports_per_npu + sw.ingress_rr (src * sw.ports_per_npu + hint % sw.ports_per_npu) pkt.dst) ++ [pkt]) } + sw.pkts_dropped = sw.occupancy + sw.pkts_dropped + 1
        rw [occupancy_push sw (src * sw.ports_per_npu + hint % sw.ports_per_npu) (pkt.dst * sw.ports_per_npu + sw.ingress_rr (src * sw.ports_per_npu + hint % sw.ports_per_npu) pkt.dst) [pkt] hin_lt hout_lt]
        simp only [List.length_cons, List.length_nil]
        omega
      · intro i j q hq
        simp only [upd2] at hq
        split at hq
        · rcases List.mem_append.mp hq with h2 | h2
          · rename_i hij
            obtain ⟨hi, hj⟩ := hij
            rw [hi, hj]
            exact Or.inl h2
          · simp only [List.mem_singleton] at h2
            exact Or.inr h2
        · exact Or.inl hq
    · refine ⟨rfl, rfl, rfl, rfl, ⟨?_, ?_⟩, ?_, ?_⟩
      · intro i d
        simp only [upd2]
        split
        · rw [hppn]
          exact Nat.mod_lt _ (by decide)
        · exact hrr.1 i d
      · exact hrr.2
      · show sw.occupancy + (sw.pkts_dropped + 1) = sw.occupancy + sw.pkts_dropped + 1
        omega
      · intro i j q hq
        exact Or.inl hq
  · simp only [if_neg hmode]
    have hout_lt : pkt.dst * sw.ports_per_npu + sw.global_rr pkt.dst < sw.n_ports := by
      have h1 := hrr.2 pkt.dst
      have h2 : pkt.dst * sw.ports_per_npu ≤ 15 * sw.ports_per_npu :=
        Nat.mul_le_mul_right _ (by omega)
      omega
    split
    · refine ⟨rfl, rfl, rfl, rfl, ⟨?_, ?_⟩, ?_, ?_⟩
      · exact hrr.1
      · intro d
        simp only [upd1]
        split
        · rw [hppn]
          exact Nat.mod_lt _ (by decide)
        · exact hrr.2 d
      · show SW5809s.occupancy { sw with voqs := upd2 sw.voqs (src * sw.ports_per_npu + hint % sw.ports_per_npu) (pkt.dst * sw.ports_per_npu + sw.global_rr pkt.dst) (sw.voqs (src * sw.ports_per_npu + hint % sw.ports_per_npu) (pkt.dst * sw.ports_per_npu + sw.global_rr pkt.dst) ++ [pkt]) } + sw.pkts_dropped = sw.occupancy + sw.pkts_dropped + 1
        rw [occupancy_push sw (src * sw.ports_per_npu + hint % sw.ports_per_npu) (pkt.dst * sw.ports_per_npu + sw.global_rr pkt.dst) [pkt] hin_lt hout_lt]
        simp only [List.length_cons, List.length_nil]
        omega
      · intro i j q hq
        simp only [upd2] at hq
        split at hq
        · rcases List.mem_append.mp hq with h2 | h2
          · rename_i hij
            obtain ⟨hi, hj⟩ := hij
            rw [hi, hj]
            exact Or.inl h2
          · simp only [List.mem_singleton] at h2
            exact Or.inr h2
        · exact Or.inl hq
    · refine ⟨rfl, rfl, rfl, rfl, ⟨?_, ?_⟩, ?_, ?_⟩
      · exact hrr.1
      · intro d
        simp only [upd1]
        split
        · rw [hppn]
          exact Nat.mod_lt _ (by decide)
        · exact hrr.2 d
      · show sw.occupancy + (sw.pkts_dropped + 1) = sw.occupancy + sw.pkts_dropped + 1
        omega
      · intro i j q hq
        exact Or.inl hq

end FM16

namespace FM16

-- ══════════════════ Helper lemmas: the delivery-to-switch phase ══════════════════

theorem schedule_fields (s : SW5809s) :
    (s.schedule).1.n_ports = s.n_ports ∧
    (s.schedule).1.ports_per_npu = s.ports_per_npu ∧
    (s.schedule).1.ingress_rr = s.ingress_rr ∧
    (s.schedule).1.global_rr = s.global_rr ∧
    (s.schedule).1.pkts_dropped = s.pkts_dropped := by
  unfold SW5809s.schedule
  have h := schedFold_fields (List.range s.n_ports) (s, [])
  exact ⟨h.1, h.2.1, h.2.2.2.1, h.2.2.2.2.1, h.2.2.2.2.2.2.1⟩

theorem swDeliverToSwitch_eq (cycle : Nat) (sw : SW5809s)
    (ts : List (Nat × Nat × Nat × Packet)) :
    swDeliverToSwitch cycle sw ts = swDelFold cycle ts (sw, []) := rfl

theorem swDelFold_facts (cycle : Nat) (P : Packet → Prop) :
    ∀ (ts : List (Nat × Nat × Nat × Packet)) (s0 : SW5809s)
      (k0 : List (Nat × Nat × Nat × Packet)),
      s0.n_ports = SW_XBAR_PORTS →
      s0.ports_per_npu = SW_PORTS_PER_NPU →
      ((∀ i d, s0.ingress_rr i d < SW_PORTS_PER_NPU) ∧
        (∀ d, s0.global_rr d < SW_PORTS_PER_NPU)) →
      (∀ i j q, q ∈ s0.voqs i j → P q) →
      (∀ e ∈ ts, e.2.1 < N_NPUS ∧ e.2.2.2.dst ≠ e.2.1 ∧
        e.2.2.2.dst < N_NPUS ∧ (e.1 ≤ cycle → P e.2.2.2)) →
      (swDelFold cycle ts (s0, k0)).1.n_ports = SW_XBAR_PORTS ∧
      (swDelFold cycle ts (s0, k0)).1.ports_per_npu = SW_PORTS_PER_NPU ∧
      (swDelFold cycle ts (s0, k0)).1.pkts_switched = s0.pkts_switched ∧
      ((∀ i d, (swDelFold cycle ts (s0, k0)).1.ingress_rr i d
          < SW_PORTS_PER_NPU) ∧
        (∀ d, (swDelFold cycle ts (s0, k0)).1.global_rr d
          < SW_PORTS_PER_NPU)) ∧
      ((swDelFold cycle ts (s0, k0)).1.occupancy
          + (swDelFold cycle ts (s0, k0)).2.length
          + (swDelFold cycle ts (s0, k0)).1.pkts_dropped
        = s0.occupancy + k0.length + ts.length + s0.pkts_dropped) ∧
      (∀ i j q, q ∈ (swDelFold cycle ts (s0, k0)).1.voqs i j → P q) ∧
      (∀ e ∈ (swDelFold cycle ts (s0, k0)).2, e ∈ k0 ∨ e ∈ ts) := by
  intro ts
  induction ts with
  | nil =>
    intro s0 k0 hn hppn hrr hv _
    exact ⟨hn, hppn, rfl, hrr, by simp [swDelFold], hv,
      fun e he => Or.inl he⟩
  | cons e rest ih =>
    intro s0 k0 hn hppn hrr hv hts
    have he0 := hts e (List.mem_cons_self e rest)
    by_cases hc : e.1 ≤ cycle
    · have henq := enqueue_facts s0 e.2.1 e.2.2.1 e.2.2.2 hn hppn hrr
        he0.1 he0.2.1 he0.2.2.1
      have hstep : swDelFold cycle (e :: rest) (s0, k0)
          = swDelFold cycle rest ((s0.enqueue e.2.1 e.2.2.1 e.2.2.2).1, k0) := by
        simp [swDelFold, hc]
      rw [hstep]
      have ih1 := ih (s0.enqueue e.2.1 e.2.2.1 e.2.2.2).1 k0
        (henq.1.trans hn) (henq.2.1.trans hppn) henq.2.2.2.2.1
        (fun i j q hq => by
          rcases henq.2.2.2.2.2.2 i j q hq with h2 | h2
          · exact hv i j q h2
          · rw [h2]; exact he0.2.2.2 hc)
        (fun e2 he2 => hts e2 (List.mem_cons_of_mem e he2))
      refine ⟨ih1.1, ih1.2.1, ?_, ih1.2.2.2.1, ?_, ih1.2.2.2.2.2.1, ?_⟩
      · rw [ih1.2.2.1, henq.2.2.1]
      · have ha := ih1.2.2.2.2.1
        have hb := henq.2.2.2.2.2.1
        simp only [List.length_cons]
        omega
      · intro e2 he2
        rcases ih1.2.2.2.2.2.2 e2 he2 with h2 | h2
        · exact Or.inl h2
        · exact Or.inr (List.mem_cons_of_mem e h2)
    · have hstep : swDelFold cycle (e :: rest) (s0, k0)
          = swDelFold cycle rest (s0, k0 ++ [e]) := by
        simp [swDelFold, hc]
      rw [hstep]
      have ih1 := ih s0 (k0 ++ [e]) hn hppn hrr hv
        (fun e2 he2 => hts e2 (List.mem_cons_of_mem e he2))
      refine ⟨ih1.1, ih1.2.1, ih1.2.2.1, ih1.2.2.2.1, ?_,
        ih1.2.2.2.2.2.1, ?_⟩
      · have ha := ih1.2.2.2.2.1
        simp only [List.length_append, List.length_cons, List.length_nil]
          at ha ⊢
        omega
      · intro e2 he2
        rcases ih1.2.2.2.2.2.2 e2 he2 with h2 | h2
        · rcases List.mem_append.mp h2 with h3 | h3
          · exact Or.inl h3
          · simp only [List.mem_singleton] at h3
            exact Or.inr (h3 ▸ List.mem_cons_self e rest)
        · exact Or.inr (List.mem_cons_of_mem e h2)

end FM16

namespace FM16

-- ══════════════════ The switched-system step invariant ══════════════════

theorem sumRange_zero (f : Nat → Nat) (h : ∀ i, f i = 0) :
    ∀ n, sumRange n f = 0 := by
  intro n
  induction n with
  | zero => rfl
  | succ m ih => rw [sumRange_succ, ih, h m]

theorem swStep_eq (s : SW16System) (o : Nat → Nat → InjAttempt) :
    s.step o = { ecmp_mode := s.ecmp_mode, npus := (swD s o).1,
                 switch := (swSch s o).1, cycle := s.cycle + 1,
                 to_switch := (swE s o).2, to_npu := (swD s o).2 } := rfl

theorem SWInv_init (ecmp_mode : String) : SWInv (mkSW16System ecmp_mode) := by
  constructor
  case len => simp [mkSW16System]
  case wfn =>
    intro n hn
    rcases List.mem_map.mp hn with ⟨i, -, heq⟩
    rw [← heq]
    simp [mkNPUNode, N_NPUS]
  case ids =>
    intro n hn
    rcases List.mem_map.mp hn with ⟨i, hi, heq⟩
    rw [← heq]
    show i < N_NPUS
    exact List.mem_range.mp hi
  case fifo_pkts =>
    intro n hn p pkt hpkt
    rcases List.mem_map.mp hn with ⟨i, -, heq⟩
    rw [← heq] at hpkt
    simp only [mkNPUNode] at hpkt
    rw [getD_replicate_nil] at hpkt
    exact absurd hpkt (List.not_mem_nil pkt)
  case swp => exact ⟨rfl, rfl⟩
  case ts =>
    intro e he
    exact absurd he (List.not_mem_nil e)
  case voq =>
    intro i j pkt hpkt
    exact absurd hpkt (List.not_mem_nil pkt)
  case tn =>
    intro e he
    exact absurd he (List.not_mem_nil e)
  case lats =>
    intro n hn l hl
    rcases List.mem_map.mp hn with ⟨i, -, heq⟩
    rw [← heq] at hl
    exact absurd hl (List.not_mem_nil l)
  case cons =>
    have hocc : (mkSW16System ecmp_mode).switch.occupancy = 0 :=
      sumRange_zero _ (fun i => sumRange_zero _ (fun j => rfl) _) _
    show nInj (mkSW16System ecmp_mode).npus
      = nDel (mkSW16System ecmp_mode).npus
        + fifoOcc (mkSW16System ecmp_mode).npus
        + (mkSW16System ecmp_mode).to_switch.length
        + (mkSW16System ecmp_mode).switch.occupancy
        + (mkSW16System ecmp_mode).to_npu.length
        + (mkSW16System ecmp_mode).switch.pkts_dropped
    rw [hocc]
    have hnp : (mkSW16System ecmp_mode).npus
        = (List.range N_NPUS).map (fun i => mkNPUNode i N_NPUS) := rfl
    have hts0 : (mkSW16System ecmp_mode).to_switch.length = 0 := rfl
    have htn0 : (mkSW16System ecmp_mode).to_npu.length = 0 := rfl
    have hdr0 : (mkSW16System ecmp_mode).switch.pkts_dropped = 0 := rfl
    rw [hnp, hts0, htn0, hdr0]
    decide
  case rrb =>
    refine ⟨fun i d => ?_, fun d => ?_⟩
    · show (0 : Nat) < SW_PORTS_PER_NPU
      decide
    · show (0 : Nat) < SW_PORTS_PER_NPU
      decide

end FM16

namespace FM16

theorem SWInv_step (s : SW16System) (o : Nat → Nat → InjAttempt)
    (h : SWInv s) : SWInv (s.step o) := by
  have hsl : SW_LINK_LATENCY = 2 := rfl
  have hxl : SW_XBAR_LATENCY = 1 := rfl
  have hN1 : s.npus.map (fun n => n.inject s.cycle (o n.id)) = swN1 s o := rfl
  have hinj := injectAll_facts s.cycle o s.npus h.wfn
  rw [hN1] at hinj
  have hwf1 : ∀ n1 ∈ swN1 s o,
      0 < n1.n_ports ∧ n1.out_fifos.length = n1.n_ports := by
    intro n1 hn1
    obtain ⟨n0, hn0, heq⟩ := injectAll_mem s.cycle o s.npus n1 hn1
    have hf := inject_fields s.cycle (o n0.id) n0
    have hw := h.wfn n0 hn0
    subst heq
    exact ⟨hf.2.1 ▸ hw.1, by rw [hf.2.2.1, hf.2.1]; exact hw.2⟩
  have hids1 : ∀ n1 ∈ swN1 s o, n1.id < N_NPUS := by
    intro n1 hn1
    obtain ⟨n0, hn0, heq⟩ := injectAll_mem s.cycle o s.npus n1 hn1
    have hf := inject_fields s.cycle (o n0.id) n0
    subst heq
    rw [hf.1]
    exact h.ids n0 hn0
  have hpkts1 : ∀ n1 ∈ swN1 s o, ∀ p pkt, pkt ∈ n1.out_fifos.getD p [] →
      pkt.dst ≠ n1.id ∧ pkt.dst < N_NPUS ∧ pkt.inject_cycle ≤ s.cycle := by
    intro n1 hn1 p pkt hpkt
    obtain ⟨n0, hn0, heq⟩ := injectAll_mem s.cycle o s.npus n1 hn1
    have hf := inject_fields s.cycle (o n0.id) n0
    subst heq
    rcases inject_mem s.cycle (o n0.id) n0 p pkt hpkt with h2 | h2
    · have := h.fifo_pkts n0 hn0 p pkt h2
      rw [hf.1]
      exact this
    · rw [hf.1]
      exact ⟨h2.2.1, h2.2.2.1, le_of_eq h2.2.2.2⟩
  have hlats1 : ∀ n1 ∈ swN1 s o, ∀ l2 ∈ n1.latencies,
      ((2 * SW_LINK_LATENCY + SW_XBAR_LATENCY : Nat) : Int) ≤ l2 := by
    intro n1 hn1 l2 hl
    obtain ⟨n0, hn0, heq⟩ := injectAll_mem s.cycle o s.npus n1 hn1
    have hf := inject_fields s.cycle (o n0.id) n0
    subst heq
    rw [hf.2.2.2.2] at hl
    exact h.lats n0 hn0 l2 hl
  have hT : swTxAll s.cycle (swN1 s o) s.to_switch = swT s o := rfl
  have htx := swTxAll_facts s.cycle (swN1 s o) s.to_switch hpkts1 hids1
  rw [hT] at htx
  have hts2 : ∀ e ∈ (swT s o).2, e.2.1 < N_NPUS ∧ e.2.2.2.dst ≠ e.2.1 ∧
      e.2.2.2.dst < N_NPUS ∧ e.2.2.2.inject_cycle + SW_LINK_LATENCY ≤ e.1 := by
    intro e he
    rcases htx.2.2.2.2.1 e he with h2 | h2
    · exact h.ts e h2
    · exact h2
  have hE : swDelFold s.cycle (swT s o).2 (s.switch, []) = swE s o := rfl
  have hdel := swDelFold_facts s.cycle
    (fun pkt => pkt.dst < N_NPUS ∧ pkt.inject_cycle + SW_LINK_LATENCY ≤ s.cycle)
    (swT s o).2 s.switch [] h.swp.1 h.swp.2 h.rrb
    (fun i j q hq => h.voq i j q hq)
    (by
      intro e he
      have h2 := hts2 e he
      exact ⟨h2.1, h2.2.1, h2.2.2.1, fun hle => ⟨h2.2.2.1, by omega⟩⟩)
  rw [hE] at hdel
  simp only [List.length_nil, Nat.add_zero] at hdel
  have hSch : (swE s o).1.schedule = swSch s o := rfl
  have hsch := schedule_cons
    (fun pkt => pkt.dst < N_NPUS ∧ pkt.inject_cycle + SW_LINK_LATENCY ≤ s.cycle)
    (swE s o).1 hdel.2.2.2.2.2.1
  have hschf := schedule_fields (swE s o).1
  rw [hSch] at hsch hschf
  have htn : ∀ e ∈ swTN s o, e.2.dst < N_NPUS ∧
      e.2.inject_cycle + (2 * SW_LINK_LATENCY + SW_XBAR_LATENCY) ≤ e.1 := by
    intro e he
    simp only [swTN, List.mem_append, List.mem_map] at he
    rcases he with h2 | ⟨g, hg, heq⟩
    · exact h.tn e h2
    · have hP := hsch.2.2.2 g hg
      rw [← heq]
      refine ⟨hP.1, ?_⟩
      show g.2.inject_cycle + (2 * SW_LINK_LATENCY + SW_XBAR_LATENCY)
        ≤ s.cycle + SW_XBAR_LATENCY + SW_LINK_LATENCY
      have hP2 := hP.2
      simp only [hsl, hxl] at hP2 ⊢
      omega
  have hlen2 : (swT s o).1.length = N_NPUS := by
    rw [htx.1, hinj.1, h.len]
  have hD : deliverSweep s.cycle (swT s o).1 (swTN s o) = swD s o := rfl
  have hds := deliverSweep_facts s.cycle
    (2 * SW_LINK_LATENCY + SW_XBAR_LATENCY) (swTN s o) (swT s o).1
    (by
      intro e he
      have h2 := htn e he
      rw [hlen2]
      exact h2)
  rw [hD] at hds
  have hTNlen : (swTN s o).length
      = s.to_npu.length + (swSch s o).2.length := by
    simp [swTN]
  rw [swStep_eq s o]
  constructor
  case len =>
    show (swD s o).1.length = N_NPUS
    rw [hds.1, hlen2]
  case wfn =>
    intro n2 hn2
    obtain ⟨n1, hn1, hrx⟩ := hds.2.2.2.2.2 n2 hn2
    obtain ⟨n0, hn0, hfacts⟩ := htx.2.2.2.2.2 n1 hn1
    have hw := hwf1 n0 hn0
    refine ⟨?_, ?_⟩
    · rw [hrx.2.1, hfacts.2.1]
      exact hw.1
    · rw [hrx.2.2.1, hrx.2.1, hfacts.2.2.1, hfacts.2.1]
      exact hw.2
  case ids =>
    intro n2 hn2
    obtain ⟨n1, hn1, hrx⟩ := hds.2.2.2.2.2 n2 hn2
    obtain ⟨n0, hn0, hfacts⟩ := htx.2.2.2.2.2 n1 hn1
    rw [hrx.1, hfacts.1]
    exact hids1 n0 hn0
  case fifo_pkts =>
    intro n2 hn2 p pkt hpkt
    obtain ⟨n1, hn1, hrx⟩ := hds.2.2.2.2.2 n2 hn2
    obtain ⟨n0, hn0, hfacts⟩ := htx.2.2.2.2.2 n1 hn1
    rw [hrx.2.2.1] at hpkt
    have hp1 := hfacts.2.2.2.2.2.2 p pkt hpkt
    have := hpkts1 n0 hn0 p pkt hp1
    rw [hrx.1, hfacts.1]
    show pkt.dst ≠ n0.id ∧ pkt.dst < N_NPUS ∧ pkt.inject_cycle ≤ s.cycle + 1
    exact ⟨this.1, this.2.1, by omega⟩
  case swp =>
    refine ⟨?_, ?_⟩
    · show (swSch s o).1.n_ports = SW_XBAR_PORTS
      rw [hschf.1]
      exact hdel.1
    · show (swSch s o).1.ports_per_npu = SW_PORTS_PER_NPU
      rw [hschf.2.1]
      exact hdel.2.1
  case ts =>
    intro e he
    rcases hdel.2.2.2.2.2.2 e he with h2 | h2
    · exact absurd h2 (List.not_mem_nil e)
    · exact hts2 e h2
  case voq =>
    intro i j pkt hpkt
    have hP := hsch.2.2.1 i j pkt hpkt
    show pkt.dst < N_NPUS ∧ pkt.inject_cycle + SW_LINK_LATENCY ≤ s.cycle + 1
    exact ⟨hP.1, by have := hP.2; omega⟩
  case tn =>
    intro e he
    exact htn e (hds.2.2.2.2.1 e he)
  case lats =>
    intro n2 hn2 l2 hl
    obtain ⟨n1, hn1, hrx⟩ := hds.2.2.2.2.2 n2 hn2
    obtain ⟨n0, hn0, hfacts⟩ := htx.2.2.2.2.2 n1 hn1
    rcases hrx.2.2.2.2 l2 hl with h2 | h2
    · rw [hfacts.2.2.2.1] at h2
      exact hlats1 n0 hn0 l2 h2
    · exact h2
  case cons =>
    have h0 := h.cons
    have h1a := hinj.2.1
    have h1b := hinj.2.2
    have h2a := htx.2.1
    have h2b := htx.2.2.1
    have h2c := htx.2.2.2.1
    have h3a := hdel.2.2.2.2.1
    have h4a := hsch.1
    have h4b := hschf.2.2.2.2
    have h5a := hds.2.1
    have h5b := hds.2.2.1
    have h5c := hds.2.2.2.1
    show nInj (swD s o).1
      = nDel (swD s o).1 + fifoOcc (swD s o).1 + (swE s o).2.length
        + (swSch s o).1.occupancy + (swD s o).2.length
        + (swSch s o).1.pkts_dropped
    omega
  case rrb =>
    refine ⟨fun i d => ?_, fun d => ?_⟩
    · show (swSch s o).1.ingress_rr i d < SW_PORTS_PER_NPU
      rw [hschf.2.2.1]
      exact hdel.2.2.2.1.1 i d
    · show (swSch s o).1.global_rr d < SW_PORTS_PER_NPU
      rw [hschf.2.2.2.1]
      exact hdel.2.2.2.1.2 d

theorem SWInv_run (ecmp_mode : String) (o : Nat → Nat → Nat → InjAttempt) :
    ∀ k, SWInv (swRun ecmp_mode o k) := by
  intro k
  induction k with
  | zero => exact SWInv_init ecmp_mode
  | succ m ih => exact SWInv_step (swRun ecmp_mode o m) (o m) ih

end FM16

namespace FM16

/-- C1: at every cycle boundary (after each `step()`) of every run of
either topology system, the total number of injected packets equals the
number delivered, plus the number dropped (the switch's VOQ-full drop
counter; the mesh drops nothing after injection), plus the packets still
resident in node output FIFOs, switch VOQs, and the in-flight delay
lists. -/
theorem C1_packet_conservation (o : Nat → Nat → Nat → InjAttempt)
    (ecmp_mode : String) (k : Nat) :
    (nInj (fmRun o k).npus
      = nDel (fmRun o k).npus + fifoOcc (fmRun o k).npus
        + (fmRun o k).inflight.length) ∧
    (nInj (swRun ecmp_mode o k).npus
      = nDel (swRun ecmp_mode o k).npus + fifoOcc (swRun ecmp_mode o k).npus
        + (swRun ecmp_mode o k).to_switch.length
        + (swRun ecmp_mode o k).switch.occupancy
        + (swRun ecmp_mode o k).to_npu.length
        + (swRun ecmp_mode o k).switch.pkts_dropped) :=
  ⟨(FMInv_run o k).cons, (SWInv_run ecmp_mode o k).cons⟩

/-- C2: every latency recorded at delivery is at least `FM_LINK_LATENCY`
in the mesh system and at least `2*SW_LINK_LATENCY + SW_XBAR_LATENCY` in
the switched system, for every run of either system. -/
theorem C2_latency_floor (o : Nat → Nat → Nat → InjAttempt)
    (ecmp_mode : String) (k : Nat) :
    ((allLats (fmRun o k).npus).Forall fun l2 =>
      (FM_LINK_LATENCY : Int) ≤ l2) ∧
    ((allLats (swRun ecmp_mode o k).npus).Forall fun l2 =>
      ((2 * SW_LINK_LATENCY + SW_XBAR_LATENCY : Nat) : Int) ≤ l2) := by
  refine ⟨List.forall_iff_forall_mem.mpr ?_, List.forall_iff_forall_mem.mpr ?_⟩
  · intro l2 hl
    simp only [allLats, List.mem_flatten, List.mem_map] at hl
    obtain ⟨lats, ⟨n, hn, hlats⟩, hl2⟩ := hl
    rw [← hlats] at hl2
    exact (FMInv_run o k).lats n hn l2 hl2
  · intro l2 hl
    simp only [allLats, List.mem_flatten, List.mem_map] at hl
    obtain ⟨lats, ⟨n, hn, hlats⟩, hl2⟩ := hl
    rw [← hlats] at hl2
    exact (SWInv_run ecmp_mode o k).lats n hn l2 hl2

end FM16
